import Mathlib

/-!
Verification of the bucket-gathering core of ml-cpp (`model::CBucketGatherer`
and its `CBucketQueue` rolling windows), against the natural-language
specification.  Pure functions and state transformers are shallowly embedded:
unordered maps become association lists, `CBucketQueue` becomes a
time-addressed rolling window, and the gatherer state is explicit.  Code whose
body is present in the repository header (the static `remove` sweeps, the
influencer key hash/equality functors) is translated from that source; the
remaining operations, whose definitions live outside the available sources,
are modelled from the specification and marked as such.
-/

set_option maxHeartbeats 1600000

namespace MlModel

/-- A (person id, attribute id) pair: `TSizeSizePr` in `CBucketGatherer.h`. -/
abbrev TSizeSizePr := Nat × Nat

/-- Per-bucket (person, attribute) pair counts: `TSizeSizePrUInt64UMap`
modelled as an association list from pair key to count. -/
abbrev PairCounts := List (TSizeSizePr × Nat)

/-- Per-bucket explicit-null pair set: `TSizeSizePrUSet` modelled as a
duplicate-free list of pair keys. -/
abbrev ExplicitNulls := List TSizeSizePr

/-- An influencer-count key: a pair key together with the content of the
stored influencer string (`TSizeSizePrStoredStringPtrPr`, with the stored
string represented by its content since equality and hashing are by
content). -/
abbrev InfKey := TSizeSizePr × String

/-- One influencer-count map (`TSizeSizePrStoredStringPtrPrUInt64UMap`). -/
abbrev InfMap := List (InfKey × Nat)

/-- The per-bucket vector of influencer-count maps, one per influencer field
position (`TSizeSizePrStoredStringPtrPrUInt64UMapVec`). -/
abbrev InfVec := List InfMap

/-- Look up the value stored for key `k` in an association list. -/
def lookupEntry {κ : Type} [DecidableEq κ] (m : List (κ × Nat)) (k : κ) : Option Nat :=
  (m.find? (fun e => decide (e.1 = k))).map (·.2)

/-- Increment the value stored for key `k` by `c`, creating the entry with
value `c` when absent: the behaviour of `operator[] += count` on an
unordered map (`m[k] += c` creates `m[k] = 0` first, so a zero increment
still creates the entry). -/
def incEntry {κ : Type} [DecidableEq κ] (m : List (κ × Nat)) (k : κ) (c : Nat) :
    List (κ × Nat) :=
  match m with
  | [] => [(k, c)]
  | (k', v) :: rest =>
      if k' = k then (k', v + c) :: rest else (k', v) :: incEntry rest k c

theorem lookupEntry_incEntry_self {κ : Type} [DecidableEq κ]
    (m : List (κ × Nat)) (k : κ) (c : Nat) :
    lookupEntry (incEntry m k c) k = some ((lookupEntry m k).getD 0 + c) := by
  induction m with
  | nil => simp [incEntry, lookupEntry]
  | cons e rest ih =>
      obtain ⟨k', v⟩ := e
      by_cases h : k' = k
      · subst h
        simp [incEntry, lookupEntry, List.find?]
      · simp only [incEntry, if_neg h]
        simp only [lookupEntry, List.find?, decide_eq_true_eq] at ih ⊢
        simp [h, ih]

theorem lookupEntry_incEntry_ne {κ : Type} [DecidableEq κ]
    (m : List (κ × Nat)) (k k' : κ) (c : Nat) (hne : k' ≠ k) :
    lookupEntry (incEntry m k c) k' = lookupEntry m k' := by
  induction m with
  | nil => simp [incEntry, lookupEntry, Ne.symm hne]
  | cons e rest ih =>
      obtain ⟨k₀, v⟩ := e
      by_cases h : k₀ = k
      · subst h
        simp only [incEntry, if_pos rfl]
        simp [lookupEntry, List.find?, Ne.symm hne]
      · simp only [incEntry, if_neg h]
        simp only [lookupEntry, List.find?, decide_eq_true_eq] at ih ⊢
        by_cases h' : k₀ = k'
        · simp [h']
        · simp [h', ih]

/-- Insert a pair key into an explicit-null set (no duplicates), modelling
`unordered_set::insert`. -/
def insertNull (s : ExplicitNulls) (k : TSizeSizePr) : ExplicitNulls :=
  if k ∈ s then s else k :: s

/-- Embedding of `std::binary_search` applied to the sorted `toRemove`
vector: on a range sorted by `≤` the standard guarantees make the result
exactly a membership test, realised here as the ordered scan that inspects
elements in increasing order. -/
def binarySearchSorted (xs : List Nat) (x : Nat) : Bool :=
  match xs with
  | [] => false
  | y :: rest => if x < y then false else if x = y then true else binarySearchSorted rest x

theorem binarySearchSorted_sound {xs : List Nat} {x : Nat}
    (h : binarySearchSorted xs x = true) : x ∈ xs := by
  induction xs with
  | nil => simp [binarySearchSorted] at h
  | cons y rest ih =>
      by_cases h1 : x < y
      · simp [binarySearchSorted, h1] at h
      · by_cases h2 : x = y
        · simp [h2]
        · simp only [binarySearchSorted, if_neg h1, if_neg h2] at h
          exact List.mem_cons_of_mem _ (ih h)

theorem binarySearchSorted_complete {xs : List Nat} {x : Nat}
    (hs : List.Pairwise (· ≤ ·) xs) (hx : x ∈ xs) :
    binarySearchSorted xs x = true := by
  induction xs with
  | nil => cases hx
  | cons y rest ih =>
      have hs' := List.pairwise_cons.1 hs
      rcases List.mem_cons.1 hx with h | h
      · subst h
        simp [binarySearchSorted]
      · have hyx : y ≤ x := hs'.1 x h
        have hnlt : ¬ x < y := Nat.not_lt.2 hyx
        by_cases hxy : x = y
        · simp [binarySearchSorted, hxy]
        · simp only [binarySearchSorted, if_neg hnlt, if_neg hxy]
          exact ih hs'.2 h

theorem binarySearchSorted_eq_false_of_not_mem {xs : List Nat} {x : Nat}
    (hx : x ∉ xs) : binarySearchSorted xs x = false := by
  by_cases h : binarySearchSorted xs x = true
  · exact absurd (binarySearchSorted_sound h) hx
  · simpa using h

/-- Modelled from the spec: `RollingWindow<T>` (the `CBucketQueue<T>` used by
`CBucketGatherer`, whose definition is not among the available sources): a
fixed-capacity, time-addressed container holding the most recent `K`
bucket payloads, each associated with the bucket-start time it was pushed
with.  `slots` is kept in increasing time order, oldest first. -/
structure RollingWindow (T : Type) where
  capacity : Nat
  slots : List (Int × T)

/-- Modelled from the spec: a rolling window with no bucket pushed yet. -/
def RollingWindow.empty (T : Type) (capacity : Nat) : RollingWindow T :=
  ⟨capacity, []⟩

/-- Modelled from the spec: `push(time, value)` inserts a new latest slot; if
already at capacity it evicts the slot at the smallest retained time first.
The spec requires `time` to be strictly greater than the current latest
slot's time (violating this is a fatal programming error, `NonMonotonicTime`),
so the monotonicity precondition appears as a hypothesis of every theorem
about post-push states. -/
def RollingWindow.push {T : Type} (w : RollingWindow T) (t : Int) (v : T) :
    RollingWindow T :=
  if w.slots.length < w.capacity then { w with slots := w.slots ++ [(t, v)] }
  else { w with slots := w.slots.tail ++ [(t, v)] }

/-- Modelled from the spec: `get(time)` looks a payload up by exact
bucket-start time, returning nothing if that time is not currently
retained (evicted or never pushed). -/
def RollingWindow.get {T : Type} (w : RollingWindow T) (t : Int) : Option T :=
  (w.slots.find? (fun s => decide (s.1 = t))).map (·.2)

/-- Modelled from the spec: update the payload retained at time `t` in
place, leaving every other slot unchanged. -/
def RollingWindow.modifyAt {T : Type} (w : RollingWindow T) (t : Int) (f : T → T) :
    RollingWindow T :=
  { w with slots := w.slots.map (fun s => if s.1 = t then (s.1, f s.2) else s) }

/-- Push a whole sequence of (time, payload) slots, oldest first. -/
def pushAll {T : Type} (w : RollingWindow T) (ps : List (Int × T)) : RollingWindow T :=
  ps.foldl (fun w p => w.push p.1 p.2) w

theorem RollingWindow.capacity_push {T : Type} (w : RollingWindow T) (t : Int) (v : T) :
    (w.push t v).capacity = w.capacity := by
  unfold RollingWindow.push
  by_cases h : w.slots.length < w.capacity <;> simp [h]

theorem capacity_pushAll {T : Type} (ps : List (Int × T)) (w : RollingWindow T) :
    (pushAll w ps).capacity = w.capacity := by
  induction ps generalizing w with
  | nil => rfl
  | cons p rest ih =>
      simp only [pushAll, List.foldl_cons] at *
      rw [ih, RollingWindow.capacity_push]

theorem slots_pushAll_of_fits {T : Type} (ps : List (Int × T)) (w : RollingWindow T)
    (hlen : w.slots.length + ps.length ≤ w.capacity) :
    (pushAll w ps).slots = w.slots ++ ps := by
  induction ps generalizing w with
  | nil => simp [pushAll]
  | cons p rest ih =>
      simp only [pushAll, List.foldl_cons]
      have h : w.slots.length < w.capacity := by
        simp only [List.length_cons] at hlen; omega
      have hw' : (w.push p.1 p.2).slots = w.slots ++ [(p.1, p.2)] := by
        simp [RollingWindow.push, h]
      have hc' : (w.push p.1 p.2).capacity = w.capacity :=
        RollingWindow.capacity_push w p.1 p.2
      have := ih (w.push p.1 p.2)
        (by rw [hw', hc', List.length_append]
            simp only [List.length_cons, List.length_singleton, List.length_nil]
              at hlen ⊢
            omega)
      rw [pushAll] at this
      rw [this, hw']
      simp

theorem slots_push_at_capacity {T : Type} (w : RollingWindow T) (t : Int) (v : T)
    (h : w.slots.length = w.capacity) :
    (w.push t v).slots = w.slots.tail ++ [(t, v)] := by
  simp [RollingWindow.push, h]

theorem find?_eq_some_of_pairwise_lt {T : Type} {l : List (Int × T)} {p : Int × T}
    (hl : List.Pairwise (fun a b => a.1 < b.1) l) (hp : p ∈ l) :
    l.find? (fun s => decide (s.1 = p.1)) = some p := by
  induction l with
  | nil => cases hp
  | cons q rest ih =>
      have hq := List.pairwise_cons.1 hl
      rcases List.mem_cons.1 hp with h | h
      · subst h
        simp [List.find?]
      · have hne : ¬ q.1 = p.1 := by
          have := hq.1 p h
          omega
        rw [List.find?_cons_of_neg _ (by simpa using hne)]
        exact ih hq.2 h

theorem pushAll_append {T : Type} (w : RollingWindow T) (l₁ l₂ : List (Int × T)) :
    pushAll w (l₁ ++ l₂) = pushAll (pushAll w l₁) l₂ := by
  simp [pushAll, List.foldl_append]

theorem find?_eq_none_of_forall_ne {T : Type} {l : List (Int × T)} {t : Int}
    (h : ∀ q ∈ l, q.1 ≠ t) : l.find? (fun s => decide (s.1 = t)) = none := by
  rw [List.find?_eq_none]
  intro x hx
  simpa using h x hx

/-- C7: after pushing `K+1` buckets at strictly increasing times into an
empty rolling window of capacity `K ≥ 1`, exactly the `K` most recent
buckets are retained — `get` returns each of them at its push time — and
`get` at the evicted oldest bucket's time returns nothing. -/
theorem rollingWindow_eviction {T : Type} (K : Nat) (ps : List (Int × T))
    (hK : 1 ≤ K) (hlen : ps.length = K + 1)
    (hinc : List.Pairwise (fun a b => a.1 < b.1) ps) :
    (pushAll (RollingWindow.empty T K) ps).slots = ps.tail ∧
    (∀ p ∈ ps.tail, (pushAll (RollingWindow.empty T K) ps).get p.1 = some p.2) ∧
    (∀ p₀, ps.head? = some p₀ → (pushAll (RollingWindow.empty T K) ps).get p₀.1 = none) := by
  obtain ⟨x, xs, rfl⟩ : ∃ x xs, ps = x :: xs := by
    rcases ps with _ | ⟨x, xs⟩
    · simp at hlen
    · exact ⟨x, xs, rfl⟩
  have hxs : xs ≠ [] := by
    intro h
    rw [h] at hlen
    simp at hlen
    omega
  have hxl : xs.length = K := by
    simp only [List.length_cons] at hlen
    omega
  have hslots : (pushAll (RollingWindow.empty T K) (x :: xs)).slots = xs := by
    have hdecomp : x :: xs = (x :: xs).dropLast ++ [(x :: xs).getLast (by simp)] :=
      (List.dropLast_append_getLast (by simp)).symm
    rw [hdecomp, pushAll_append]
    have hfit : (RollingWindow.empty T K).slots.length + (x :: xs).dropLast.length
        ≤ (RollingWindow.empty T K).capacity := by
      simp only [RollingWindow.empty, List.length_nil, List.length_dropLast,
        List.length_cons, Nat.zero_add]
      omega
    have h1 : (pushAll (RollingWindow.empty T K) (x :: xs).dropLast).slots
        = (x :: xs).dropLast := by
      have := slots_pushAll_of_fits (x :: xs).dropLast (RollingWindow.empty T K) hfit
      simpa [RollingWindow.empty] using this
    have hatcap : (pushAll (RollingWindow.empty T K) (x :: xs).dropLast).slots.length
        = (pushAll (RollingWindow.empty T K) (x :: xs).dropLast).capacity := by
      rw [h1, capacity_pushAll]
      simp only [RollingWindow.empty, List.length_dropLast, List.length_cons]
      omega
    have hone : pushAll (pushAll (RollingWindow.empty T K) (x :: xs).dropLast)
        [(x :: xs).getLast (by simp)]
        = (pushAll (RollingWindow.empty T K) (x :: xs).dropLast).push
            ((x :: xs).getLast (by simp)).1 ((x :: xs).getLast (by simp)).2 := rfl
    rw [hone]
    have hpush := slots_push_at_capacity _ ((x :: xs).getLast (by simp)).1
      ((x :: xs).getLast (by simp)).2 hatcap
    rw [hpush, h1]
    obtain ⟨y, ys, rfl⟩ : ∃ y ys, xs = y :: ys := by
      rcases xs with _ | ⟨y, ys⟩
      · exact absurd rfl hxs
      · exact ⟨y, ys, rfl⟩
    have hdl : (x :: y :: ys).dropLast = x :: (y :: ys).dropLast := rfl
    have hgl : (x :: y :: ys).getLast (by simp) = (y :: ys).getLast (by simp) :=
      List.getLast_cons (by simp)
    rw [hdl, hgl, List.tail_cons]
    exact List.dropLast_append_getLast (by simp)
  have hpw : List.Pairwise (fun a b : Int × T => a.1 < b.1) xs :=
    (List.pairwise_cons.1 hinc).2
  refine ⟨by simpa using hslots, ?_, ?_⟩
  · intro p hp
    unfold RollingWindow.get
    rw [hslots]
    rw [find?_eq_some_of_pairwise_lt hpw (by simpa using hp)]
    rfl
  · intro p₀ hp₀
    simp only [List.head?_cons, Option.some.injEq] at hp₀
    subst hp₀
    unfold RollingWindow.get
    rw [hslots]
    rw [find?_eq_none_of_forall_ne]
    · rfl
    · intro q hq
      have := (List.pairwise_cons.1 hinc).1 q hq
      omega

/-- Witness for C7 at capacity 2 with three pushes at times 0, 60, 120. -/
theorem rollingWindow_eviction_witness :
    (pushAll (RollingWindow.empty Nat 2) [(0, 10), (60, 11), (120, 12)]).get 0 = none ∧
    (pushAll (RollingWindow.empty Nat 2) [(0, 10), (60, 11), (120, 12)]).get 60 = some 11 ∧
    (pushAll (RollingWindow.empty Nat 2) [(0, 10), (60, 11), (120, 12)]).get 120 = some 12 := by
  have h := rollingWindow_eviction 2 [(0, 10), (60, 11), (120, 12)]
    (by decide) (by decide) (by decide)
  exact ⟨h.2.2 (0, 10) rfl, h.2.1 (60, 11) (by decide), h.2.1 (120, 12) (by decide)⟩

/-- Modelled from the spec: the bucket-aligned floor of a time — the start
of the bucket containing it (the `CIntegerTools::floor` used by the
gatherer, not among the available sources).  For a positive bucket length,
Euclidean division realises the floor. -/
def bucketFloor (t len : Int) : Int := len * (t / len)

theorem bucketFloor_dvd (t len : Int) : len ∣ bucketFloor t len :=
  Dvd.intro _ rfl

theorem bucketFloor_of_dvd {b len : Int} (h : len ∣ b) : bucketFloor b len = b :=
  Int.mul_ediv_cancel' h

/-- Modelled from the spec: a recorded event as passed to `recordEvent`
(`CBucketGatherer::addEventData`, whose body is not among the available
sources): a (person, attribute) pair key, the event time, a non-negative
count, the explicit-null flag and the optional influencer field value for
each influencer position. -/
structure EventData where
  pid : Nat
  cid : Nat
  time : Int
  count : Nat
  explicitNull : Bool
  influences : List (Option String)

/-- Modelled from the spec: the aggregator state of `CBucketGatherer`: the
fixed bucket length and latency budget, the number of influencer field
positions, the earliest observed event time (unset initially), the current
bucket start, one rolling window per aggregate kind, and the unbounded
overflow (multi-bucket) map per aggregate kind, keyed by absolute
bucket-start time. -/
structure Gatherer where
  bucketLength : Int
  latencyBuckets : Nat
  numInfluencers : Nat
  earliestTime : Option Int
  bucketStart : Int
  personAttributeCounts : RollingWindow PairCounts
  multiBucketPersonAttributeCounts : List (Int × PairCounts)
  personAttributeExplicitNulls : RollingWindow ExplicitNulls
  multiBucketPersonAttributeExplicitNulls : List (Int × ExplicitNulls)
  influencerCounts : RollingWindow InfVec
  multiBucketInfluencerCounts : List (Int × InfVec)

/-- Modelled from the spec: `earliestBucketStartTime` — the earliest time
for which data can still arrive, a latency budget of `latencyBuckets`
bucket lengths behind the current bucket start. -/
def earliestBucketStartTime (g : Gatherer) : Int :=
  g.bucketStart - (g.latencyBuckets : Int) * g.bucketLength

/-- Modelled from the spec: the empty influencer payload of a fresh bucket,
one empty count map per influencer field position. -/
def emptyInfVec (g : Gatherer) : InfVec := List.replicate g.numInfluencers []

/-- Modelled from the spec: update the influencer-count maps of one bucket —
for each influencer position carrying a value, the count at
`((pid, cid), value)` grows by `count`. -/
def updateInfVec (vec : InfVec) (infs : List (Option String)) (k : TSizeSizePr)
    (c : Nat) : InfVec :=
  List.zipWith
    (fun m o =>
      match o with
      | none => m
      | some v => incEntry m (k, v) c) vec infs

/-- Look up the payload stored at bucket-start time `t` in an overflow map. -/
def lookupTime {β : Type} (m : List (Int × β)) (t : Int) : Option β :=
  (m.find? (fun e => decide (e.1 = t))).map (·.2)

/-- Update the payload at bucket-start time `t` in an overflow map, creating
the entry from `dflt` when absent — the behaviour of `std::map::operator[]`,
keeping entries ordered by time. -/
def updateAt {β : Type} (m : List (Int × β)) (t : Int) (dflt : β) (f : β → β) :
    List (Int × β) :=
  match m with
  | [] => [(t, f dflt)]
  | (t', v) :: rest =>
      if t = t' then (t', f v) :: rest
      else if t < t' then (t, f dflt) :: (t', v) :: rest
      else (t', v) :: updateAt rest t dflt f

/-- Modelled from the spec: `addEventData` (`recordEvent`).  An event whose
time is earlier than `earliestBucketStartTime` is rejected without mutating
any state (the `TooLateEvent` condition).  Otherwise the bucket-start for
the event time is resolved; if retained by the rolling windows the in-window
payloads are mutated, otherwise the overflow (multi-bucket) maps are:
`PairCounts[(pid, cid)]` grows by `count` (a zero count still creates the
entry with value 0), the pair enters `ExplicitNulls` when the flag is set,
the influencer maps grow by `count` at each present influencer value, and
`earliestTime` drops to the minimum observed time.  Returns the new state
and whether the event was accepted. -/
def addEventData (g : Gatherer) (e : EventData) : Gatherer × Bool :=
  if e.time < earliestBucketStartTime g then (g, false)
  else
    let b := bucketFloor e.time g.bucketLength
    let k : TSizeSizePr := (e.pid, e.cid)
    let et : Option Int :=
      some (match g.earliestTime with
            | none => e.time
            | some t => min t e.time)
    if (g.personAttributeCounts.get b).isSome then
      ({ g with
          earliestTime := et
          personAttributeCounts :=
            g.personAttributeCounts.modifyAt b (fun m => incEntry m k e.count)
          personAttributeExplicitNulls :=
            if e.explicitNull then
              g.personAttributeExplicitNulls.modifyAt b (fun s => insertNull s k)
            else g.personAttributeExplicitNulls
          influencerCounts :=
            g.influencerCounts.modifyAt b
              (fun v => updateInfVec v e.influences k e.count) },
        true)
    else
      ({ g with
          earliestTime := et
          multiBucketPersonAttributeCounts :=
            updateAt g.multiBucketPersonAttributeCounts b []
              (fun m => incEntry m k e.count)
          multiBucketPersonAttributeExplicitNulls :=
            if e.explicitNull then
              updateAt g.multiBucketPersonAttributeExplicitNulls b []
                (fun s => insertNull s k)
            else g.multiBucketPersonAttributeExplicitNulls
          multiBucketInfluencerCounts :=
            updateAt g.multiBucketInfluencerCounts b (emptyInfVec g)
              (fun v => updateInfVec v e.influences k e.count) },
        true)

/-- Record a whole sequence of events, oldest first, discarding the
per-event acceptance flags. -/
def addAll (g : Gatherer) (es : List EventData) : Gatherer :=
  es.foldl (fun g e => (addEventData g e).1) g

/-- The count stored for pair key `k` in the bucket starting at `b`,
wherever that bucket lives: the in-window payload when retained, the
overflow (multi-bucket) map otherwise. -/
def pairCountAt (g : Gatherer) (b : Int) (k : TSizeSizePr) : Option Nat :=
  match g.personAttributeCounts.get b with
  | some m => lookupEntry m k
  | none =>
      match lookupTime g.multiBucketPersonAttributeCounts b with
      | some m => lookupEntry m k
      | none => none

/-- The sum of the count arguments supplied for pair key `k` by a sequence
of events. -/
def sumCounts (es : List EventData) (k : TSizeSizePr) : Nat :=
  ((es.filter (fun e => decide ((e.pid, e.cid) = k))).map (fun e => e.count)).sum

theorem get_modifyAt_self {T : Type} (w : RollingWindow T) (t : Int) (f : T → T) :
    (w.modifyAt t f).get t = (w.get t).map f := by
  unfold RollingWindow.modifyAt RollingWindow.get
  simp only
  induction w.slots with
  | nil => simp
  | cons s rest ih =>
      by_cases h : s.1 = t
      · simp [List.find?_cons, h]
      · simp only [List.map_cons, if_neg h]
        rw [List.find?_cons_of_neg _ (by simpa using h),
          List.find?_cons_of_neg _ (by simpa using h)]
        exact ih

theorem mem_updateAt_key {β : Type} {m : List (Int × β)} {t : Int} {d : β}
    {f : β → β} {x : Int × β} (hx : x ∈ updateAt m t d f) :
    x.1 = t ∨ ∃ y ∈ m, x.1 = y.1 := by
  induction m with
  | nil =>
      simp only [updateAt, List.mem_singleton] at hx
      subst hx
      exact Or.inl rfl
  | cons e rest ih =>
      obtain ⟨t', v⟩ := e
      by_cases h1 : t = t'
      · simp only [updateAt, if_pos h1] at hx
        rcases List.mem_cons.1 hx with h | h
        · subst h; exact Or.inl h1.symm
        · exact Or.inr ⟨x, List.mem_cons_of_mem _ h, rfl⟩
      · by_cases h2 : t < t'
        · simp only [updateAt, if_neg h1, if_pos h2] at hx
          rcases List.mem_cons.1 hx with h | h
          · subst h; exact Or.inl rfl
          · exact Or.inr ⟨x, h, rfl⟩
        · simp only [updateAt, if_neg h1, if_neg h2] at hx
          rcases List.mem_cons.1 hx with h | h
          · subst h; exact Or.inr ⟨(t', v), List.mem_cons_self _ _, rfl⟩
          · rcases ih h with h' | ⟨y, hy, hxy⟩
            · exact Or.inl h'
            · exact Or.inr ⟨y, List.mem_cons_of_mem _ hy, hxy⟩

theorem updateAt_pairwise {β : Type} {m : List (Int × β)} (t : Int) (d : β)
    (f : β → β) (h : List.Pairwise (fun a b => a.1 < b.1) m) :
    List.Pairwise (fun a b : Int × β => a.1 < b.1) (updateAt m t d f) := by
  induction m with
  | nil => simp [updateAt]
  | cons e rest ih =>
      obtain ⟨t', v⟩ := e
      have h' := List.pairwise_cons.1 h
      by_cases h1 : t = t'
      · simp only [updateAt, if_pos h1]
        exact List.pairwise_cons.2 ⟨h'.1, h'.2⟩
      · by_cases h2 : t < t'
        · simp only [updateAt, if_neg h1, if_pos h2]
          refine List.pairwise_cons.2 ⟨?_, h⟩
          intro x hx
          rcases List.mem_cons.1 hx with hx' | hx'
          · subst hx'; exact h2
          · exact lt_trans h2 (h'.1 x hx')
        · simp only [updateAt, if_neg h1, if_neg h2]
          refine List.pairwise_cons.2 ⟨?_, ih h'.2⟩
          intro x hx
          rcases mem_updateAt_key hx with hk | ⟨y, hy, hk⟩
          · rw [hk]; omega
          · rw [hk]; exact h'.1 y hy

theorem lookupTime_updateAt_self {β : Type} (m : List (Int × β)) (t : Int)
    (d : β) (f : β → β) (h : List.Pairwise (fun a b => a.1 < b.1) m) :
    lookupTime (updateAt m t d f) t = some (f ((lookupTime m t).getD d)) := by
  induction m with
  | nil => simp [updateAt, lookupTime]
  | cons e rest ih =>
      obtain ⟨t', v⟩ := e
      have h' := List.pairwise_cons.1 h
      by_cases h1 : t = t'
      · subst h1
        simp [updateAt, lookupTime, List.find?_cons]
      · by_cases h2 : t < t'
        · simp only [updateAt, if_neg h1, if_pos h2, lookupTime]
          rw [List.find?_cons_of_pos _ (by simp)]
          have hnone : (((t', v) :: rest).find? (fun e => decide (e.1 = t))) = none := by
            rw [List.find?_eq_none]
            intro x hx
            rcases List.mem_cons.1 hx with hx' | hx'
            · subst hx'; simpa using Ne.symm h1
            · have := h'.1 x hx'
              simp only [decide_eq_true_eq]
              omega
          simp [hnone]
        · simp only [updateAt, if_neg h1, if_neg h2, lookupTime]
          rw [List.find?_cons_of_neg _ (by simp; omega),
            List.find?_cons_of_neg _ (by simp; omega)]
          exact ih h'.2

theorem lookupTime_updateAt_ne {β : Type} (m : List (Int × β)) (t t'' : Int)
    (d : β) (f : β → β) (h : t'' ≠ t) :
    lookupTime (updateAt m t d f) t'' = lookupTime m t'' := by
  induction m with
  | nil =>
      simp only [updateAt, lookupTime, List.find?_nil, Option.map_none]
      rw [List.find?_cons_of_neg _ (by simp; omega)]
      simp
  | cons e rest ih =>
      obtain ⟨t', v⟩ := e
      by_cases h1 : t = t'
      · subst h1
        simp only [updateAt, lookupTime]
        rw [if_pos trivial]
        rw [List.find?_cons_of_neg _ (by simp; omega),
          List.find?_cons_of_neg _ (by simp; omega)]
      · by_cases h2 : t < t'
        · simp only [updateAt, if_neg h1, if_pos h2, lookupTime]
          rw [List.find?_cons_of_neg _ (by simp; omega)]
        · simp only [updateAt, if_neg h1, if_neg h2, lookupTime]
          by_cases h3 : t' = t''
          · rw [List.find?_cons_of_pos _ (by simpa using h3),
              List.find?_cons_of_pos _ (by simpa using h3)]
          · rw [List.find?_cons_of_neg _ (by simpa using h3),
              List.find?_cons_of_neg _ (by simpa using h3)]
            exact ih

theorem addEventData_reject (g : Gatherer) (e : EventData)
    (h : e.time < earliestBucketStartTime g) : addEventData g e = (g, false) := by
  simp only [addEventData]
  rw [if_pos h]

theorem addEventData_window (g : Gatherer) (e : EventData)
    (hnl : ¬ e.time < earliestBucketStartTime g)
    (hw : (g.personAttributeCounts.get (bucketFloor e.time g.bucketLength)).isSome
      = true) :
    addEventData g e =
      ({ g with
          earliestTime := some (match g.earliestTime with
            | none => e.time
            | some t => min t e.time)
          personAttributeCounts :=
            g.personAttributeCounts.modifyAt (bucketFloor e.time g.bucketLength)
              (fun m => incEntry m (e.pid, e.cid) e.count)
          personAttributeExplicitNulls :=
            if e.explicitNull then
              g.personAttributeExplicitNulls.modifyAt
                (bucketFloor e.time g.bucketLength)
                (fun s => insertNull s (e.pid, e.cid))
            else g.personAttributeExplicitNulls
          influencerCounts :=
            g.influencerCounts.modifyAt (bucketFloor e.time g.bucketLength)
              (fun v => updateInfVec v e.influences (e.pid, e.cid) e.count) },
        true) := by
  simp only [addEventData]
  rw [if_neg hnl, if_pos hw]

theorem addEventData_overflow (g : Gatherer) (e : EventData)
    (hnl : ¬ e.time < earliestBucketStartTime g)
    (hw : (g.personAttributeCounts.get (bucketFloor e.time g.bucketLength)).isSome
      = false) :
    addEventData g e =
      ({ g with
          earliestTime := some (match g.earliestTime with
            | none => e.time
            | some t => min t e.time)
          multiBucketPersonAttributeCounts :=
            updateAt g.multiBucketPersonAttributeCounts
              (bucketFloor e.time g.bucketLength) []
              (fun m => incEntry m (e.pid, e.cid) e.count)
          multiBucketPersonAttributeExplicitNulls :=
            if e.explicitNull then
              updateAt g.multiBucketPersonAttributeExplicitNulls
                (bucketFloor e.time g.bucketLength) []
                (fun s => insertNull s (e.pid, e.cid))
            else g.multiBucketPersonAttributeExplicitNulls
          multiBucketInfluencerCounts :=
            updateAt g.multiBucketInfluencerCounts
              (bucketFloor e.time g.bucketLength) (emptyInfVec g)
              (fun v => updateInfVec v e.influences (e.pid, e.cid) e.count) },
        true) := by
  simp only [addEventData]
  rw [if_neg hnl, if_neg (by simp [hw])]

theorem addEventData_config (g : Gatherer) (e : EventData) :
    (addEventData g e).1.bucketLength = g.bucketLength ∧
    (addEventData g e).1.latencyBuckets = g.latencyBuckets ∧
    (addEventData g e).1.bucketStart = g.bucketStart ∧
    (addEventData g e).1.numInfluencers = g.numInfluencers := by
  by_cases h : e.time < earliestBucketStartTime g
  · rw [addEventData_reject g e h]
    exact ⟨rfl, rfl, rfl, rfl⟩
  · cases hw : (g.personAttributeCounts.get (bucketFloor e.time g.bucketLength)).isSome with
    | false =>
        rw [addEventData_overflow g e h hw]
        exact ⟨rfl, rfl, rfl, rfl⟩
    | true =>
        rw [addEventData_window g e h hw]
        exact ⟨rfl, rfl, rfl, rfl⟩

theorem earliestBucketStartTime_addEventData (g : Gatherer) (e : EventData) :
    earliestBucketStartTime (addEventData g e).1 = earliestBucketStartTime g := by
  obtain ⟨h1, h2, h3, _⟩ := addEventData_config g e
  unfold earliestBucketStartTime
  rw [h1, h2, h3]

theorem addEventData_overflow_pairwise (g : Gatherer) (e : EventData)
    (h : List.Pairwise (fun a b => a.1 < b.1) g.multiBucketPersonAttributeCounts) :
    List.Pairwise (fun a b : Int × PairCounts => a.1 < b.1)
      (addEventData g e).1.multiBucketPersonAttributeCounts := by
  by_cases hr : e.time < earliestBucketStartTime g
  · rw [addEventData_reject g e hr]
    exact h
  · cases hw : (g.personAttributeCounts.get (bucketFloor e.time g.bucketLength)).isSome with
    | false =>
        rw [addEventData_overflow g e hr hw]
        exact updateAt_pairwise _ _ _ h
    | true =>
        rw [addEventData_window g e hr hw]
        exact h

theorem pairCountAt_addEventData_self (g : Gatherer) (e : EventData)
    (hacc : earliestBucketStartTime g ≤ e.time)
    (hsorted : List.Pairwise (fun a b => a.1 < b.1)
      g.multiBucketPersonAttributeCounts) :
    pairCountAt (addEventData g e).1 (bucketFloor e.time g.bucketLength) (e.pid, e.cid)
      = some ((pairCountAt g (bucketFloor e.time g.bucketLength) (e.pid, e.cid)).getD 0
          + e.count) := by
  have hnl : ¬ e.time < earliestBucketStartTime g := not_lt.2 hacc
  cases hw : g.personAttributeCounts.get (bucketFloor e.time g.bucketLength) with
  | some m =>
      have hws : (g.personAttributeCounts.get
          (bucketFloor e.time g.bucketLength)).isSome = true := by
        rw [hw]; rfl
      rw [addEventData_window g e hnl hws]
      simp only [pairCountAt, get_modifyAt_self, hw, Option.map_some',
        lookupEntry_incEntry_self]
  | none =>
      have hws : (g.personAttributeCounts.get
          (bucketFloor e.time g.bucketLength)).isSome = false := by
        rw [hw]; rfl
      rw [addEventData_overflow g e hnl hws]
      have hup := lookupTime_updateAt_self g.multiBucketPersonAttributeCounts
        (bucketFloor e.time g.bucketLength) []
        (fun m => incEntry m (e.pid, e.cid) e.count) hsorted
      cases hlt : lookupTime g.multiBucketPersonAttributeCounts
          (bucketFloor e.time g.bucketLength) with
      | some m₀ =>
          rw [hlt] at hup
          simp only [pairCountAt, hw, hup, hlt, Option.getD_some,
            lookupEntry_incEntry_self]
      | none =>
          rw [hlt] at hup
          simp only [pairCountAt, hw, hup, hlt, Option.getD_none,
            lookupEntry_incEntry_self]
          simp [lookupEntry]

theorem pairCountAt_addEventData_ne (g : Gatherer) (e : EventData) (k : TSizeSizePr)
    (hacc : earliestBucketStartTime g ≤ e.time)
    (hk : k ≠ (e.pid, e.cid))
    (hsorted : List.Pairwise (fun a b => a.1 < b.1)
      g.multiBucketPersonAttributeCounts) :
    pairCountAt (addEventData g e).1 (bucketFloor e.time g.bucketLength) k
      = pairCountAt g (bucketFloor e.time g.bucketLength) k := by
  have hnl : ¬ e.time < earliestBucketStartTime g := not_lt.2 hacc
  cases hw : g.personAttributeCounts.get (bucketFloor e.time g.bucketLength) with
  | some m =>
      have hws : (g.personAttributeCounts.get
          (bucketFloor e.time g.bucketLength)).isSome = true := by
        rw [hw]; rfl
      rw [addEventData_window g e hnl hws]
      simp only [pairCountAt, get_modifyAt_self, hw, Option.map_some',
        lookupEntry_incEntry_ne _ _ _ _ hk]
  | none =>
      have hws : (g.personAttributeCounts.get
          (bucketFloor e.time g.bucketLength)).isSome = false := by
        rw [hw]; rfl
      rw [addEventData_overflow g e hnl hws]
      have hup := lookupTime_updateAt_self g.multiBucketPersonAttributeCounts
        (bucketFloor e.time g.bucketLength) []
        (fun m => incEntry m (e.pid, e.cid) e.count) hsorted
      cases hlt : lookupTime g.multiBucketPersonAttributeCounts
          (bucketFloor e.time g.bucketLength) with
      | some m₀ =>
          rw [hlt] at hup
          simp only [pairCountAt, hw, hup, hlt, Option.getD_some,
            lookupEntry_incEntry_ne _ _ _ _ hk]
      | none =>
          rw [hlt] at hup
          simp only [pairCountAt, hw, hup, hlt, Option.getD_none,
            lookupEntry_incEntry_ne _ _ _ _ hk]
          simp [lookupEntry]

theorem sumCounts_eq_zero {es : List EventData} {k : TSizeSizePr}
    (h : es.any (fun e => decide ((e.pid, e.cid) = k)) = false) :
    sumCounts es k = 0 := by
  induction es with
  | nil => rfl
  | cons e rest ih =>
      rw [List.any_cons, Bool.or_eq_false_iff] at h
      have hr := ih h.2
      unfold sumCounts at hr ⊢
      rw [List.filter_cons, if_neg (by simp [h.1])]
      exact hr

theorem pairCountAt_addAll (es : List EventData) :
    ∀ (g : Gatherer) (B : Int) (k : TSizeSizePr),
      List.Pairwise (fun a b => a.1 < b.1) g.multiBucketPersonAttributeCounts →
      (∀ e ∈ es, bucketFloor e.time g.bucketLength = B) →
      (∀ e ∈ es, earliestBucketStartTime g ≤ e.time) →
      pairCountAt (addAll g es) B k =
        if es.any (fun e => decide ((e.pid, e.cid) = k))
        then some ((pairCountAt g B k).getD 0 + sumCounts es k)
        else pairCountAt g B k := by
  induction es with
  | nil =>
      intro g B k _ _ _
      simp [addAll, sumCounts]
  | cons e rest ih =>
      intro g B k hsorted hB hacc
      have hBe := hB e (List.mem_cons_self e rest)
      have hacce := hacc e (List.mem_cons_self e rest)
      have hconf := addEventData_config g e
      have hsorted' := addEventData_overflow_pairwise g e hsorted
      have hB' : ∀ e' ∈ rest,
          bucketFloor e'.time (addEventData g e).1.bucketLength = B := by
        intro e' he'
        rw [hconf.1]
        exact hB e' (List.mem_cons_of_mem _ he')
      have hacc' : ∀ e' ∈ rest,
          earliestBucketStartTime (addEventData g e).1 ≤ e'.time := by
        intro e' he'
        rw [earliestBucketStartTime_addEventData]
        exact hacc e' (List.mem_cons_of_mem _ he')
      have haddAll : addAll g (e :: rest) = addAll (addEventData g e).1 rest := rfl
      rw [haddAll, ih (addEventData g e).1 B k hsorted' hB' hacc']
      by_cases hke : (e.pid, e.cid) = k
      · have hself := pairCountAt_addEventData_self g e hacce hsorted
        rw [hBe, hke] at hself
        have hsum : sumCounts (e :: rest) k = e.count + sumCounts rest k := by
          unfold sumCounts
          rw [List.filter_cons, if_pos (by simp [hke])]
          simp
        cases hra : rest.any (fun e => decide ((e.pid, e.cid) = k)) with
        | false =>
            rw [if_neg (by simp [hra]), hself,
              if_pos (by simp [List.any_cons, hke]), hsum,
              sumCounts_eq_zero hra]
            simp
        | true =>
            rw [if_pos (by simp [hra]), hself,
              if_pos (by simp [List.any_cons, hke]), hsum]
            simp [Nat.add_assoc]
      · have hkne : k ≠ (e.pid, e.cid) := fun h => hke h.symm
        have hne := pairCountAt_addEventData_ne g e k hacce hkne hsorted
        rw [hBe] at hne
        have hanyc : (e :: rest).any (fun e => decide ((e.pid, e.cid) = k))
            = rest.any (fun e => decide ((e.pid, e.cid) = k)) := by
          simp [List.any_cons, hke]
        have hsum : sumCounts (e :: rest) k = sumCounts rest k := by
          unfold sumCounts
          rw [List.filter_cons, if_neg (by simp [hke])]
        rw [hne, hanyc, hsum]

/-- C1: count conservation — for every sequence of `recordEvent`
(`addEventData`) calls whose times all fall in the bucket starting at `B`
and are all accepted, the resulting `PairCounts` entry for a pair key that
starts absent equals the sum of the `count` arguments supplied for that
pair key (and exists exactly when some call supplied that key, so a call
with count 0 still creates the entry, with value 0). -/
theorem count_conservation (g : Gatherer) (es : List EventData) (B : Int)
    (k : TSizeSizePr)
    (hsorted : List.Pairwise (fun a b => a.1 < b.1)
      g.multiBucketPersonAttributeCounts)
    (hB : ∀ e ∈ es, bucketFloor e.time g.bucketLength = B)
    (hacc : ∀ e ∈ es, earliestBucketStartTime g ≤ e.time)
    (hnone : pairCountAt g B k = none) :
    pairCountAt (addAll g es) B k =
      if es.any (fun e => decide ((e.pid, e.cid) = k)) then some (sumCounts es k)
      else none := by
  rw [pairCountAt_addAll es g B k hsorted hB hacc, hnone]
  simp

/-- A small concrete gatherer: bucket length 60, start time 0, the bucket
at 0 open in every rolling window, no latency and no influencer fields. -/
def gWitness : Gatherer :=
  { bucketLength := 60, latencyBuckets := 0, numInfluencers := 0,
    earliestTime := none, bucketStart := 0,
    personAttributeCounts := ⟨1, [(0, [])]⟩,
    multiBucketPersonAttributeCounts := [],
    personAttributeExplicitNulls := ⟨1, [(0, [])]⟩,
    multiBucketPersonAttributeExplicitNulls := [],
    influencerCounts := ⟨1, [(0, [])]⟩,
    multiBucketInfluencerCounts := [] }

/-- Witness for C1: recording (pid 1, cid 0) at time 10 with count 3 and at
time 50 with count 2 — both inside the bucket starting at 0 — yields the
pair count 5. -/
theorem count_conservation_witness :
    pairCountAt (addAll gWitness
      [⟨1, 0, 10, 3, false, []⟩, ⟨1, 0, 50, 2, false, []⟩]) 0 (1, 0)
      = some 5 := by
  have h := count_conservation gWitness
    [⟨1, 0, 10, 3, false, []⟩, ⟨1, 0, 50, 2, false, []⟩] 0 (1, 0)
    (by decide) (by decide) (by decide) (by decide)
  exact h.trans (by decide)

/-- A stored string pointer (`core::CStoredStringPtr`): an interning pointer
identity together with the pointed-to string content. -/
structure CStoredStringPtr where
  addr : Nat
  content : String

/-- A `((size_t, size_t), string*)` influencer-count key
(`TSizeSizePrStoredStringPtrPr` in `CBucketGatherer.h`). -/
structure SizeSizePrStoredStringPtrPr where
  pair : TSizeSizePr
  value : CStoredStringPtr

/-- Embedding of `SSizeSizePrStoredStringPtrPrEqual` from `CBucketGatherer.h`:
`lhs.first == rhs.first && *lhs.second == *rhs.second` — the id pairs are
compared directly and the stored strings through the pointer, by content. -/
def prEqual (lhs rhs : SizeSizePrStoredStringPtrPr) : Bool :=
  decide (lhs.pair = rhs.pair) && decide (lhs.value.content = rhs.value.content)

/-- Embedding of `SSizeSizePrStoredStringPtrPrHash` from `CBucketGatherer.h`:
`hashCombine(hashCombine(first, second), hasher(*key.second))`,
parameterised by `core::CHashing::hashCombine` and the murmur string hasher
(whose definitions live outside the available sources); the stored pointer
is dereferenced, so only the string content enters the hash. -/
def prHash (hashCombine : Nat → Nat → Nat) (strHash : String → Nat)
    (key : SizeSizePrStoredStringPtrPr) : Nat :=
  hashCombine (hashCombine key.pair.1 key.pair.2) (strHash key.value.content)

/-- C5: influencer key semantics — the equality functor holds iff the id
pairs are equal and the pointed-to string contents are equal, and any two
keys that compare equal hash identically under every choice of the hash
combiners; in particular keys holding distinct interned pointers to the
same text compare equal and hash identically. -/
theorem influencer_key_semantics (l r : SizeSizePrStoredStringPtrPr) :
    (prEqual l r = true ↔ l.pair = r.pair ∧ l.value.content = r.value.content) ∧
    (∀ (hashCombine : Nat → Nat → Nat) (strHash : String → Nat),
      prEqual l r = true →
      prHash hashCombine strHash l = prHash hashCombine strHash r) := by
  constructor
  · simp [prEqual]
  · intro hashCombine strHash h
    simp only [prEqual, Bool.and_eq_true, decide_eq_true_eq] at h
    unfold prHash
    rw [h.1, h.2]

/-- Witness for C5: two keys with the same id pair and the same text behind
distinct interning pointers compare equal and hash identically. -/
theorem influencer_key_semantics_witness :
    prEqual ⟨(1, 2), ⟨100, "web"⟩⟩ ⟨(1, 2), ⟨200, "web"⟩⟩ = true ∧
    prHash (fun a b => 31 * a + b) (fun s => s.length) ⟨(1, 2), ⟨100, "web"⟩⟩
      = prHash (fun a b => 31 * a + b) (fun s => s.length) ⟨(1, 2), ⟨200, "web"⟩⟩ := by
  have h := influencer_key_semantics ⟨(1, 2), ⟨100, "web"⟩⟩ ⟨(1, 2), ⟨200, "web"⟩⟩
  have he : prEqual ⟨(1, 2), ⟨100, "web"⟩⟩ ⟨(1, 2), ⟨200, "web"⟩⟩ = true :=
    h.1.mpr ⟨rfl, rfl⟩
  exact ⟨he, h.2 (fun a b => 31 * a + b) (fun s => s.length) he⟩

/-- Apply a payload transformation to every (time, payload) entry of a
time-keyed list, keeping the times. -/
def mapValues {β γ : Type} (m : List (Int × β)) (F : β → γ) : List (Int × γ) :=
  m.map (fun s => (s.1, F s.2))

/-- Apply a payload transformation to every retained slot of a rolling
window. -/
def RollingWindow.mapPayload {T U : Type} (w : RollingWindow T) (F : T → U) :
    RollingWindow U :=
  ⟨w.capacity, mapValues w.slots F⟩

theorem get_mapPayload {T U : Type} (w : RollingWindow T) (F : T → U) (t : Int) :
    (w.mapPayload F).get t = (w.get t).map F := by
  unfold RollingWindow.mapPayload RollingWindow.get mapValues
  simp only
  induction w.slots with
  | nil => simp
  | cons s rest ih =>
      by_cases h : s.1 = t
      · simp [List.find?_cons, h]
      · rw [List.map_cons, List.find?_cons_of_neg _ (by simpa using h),
          List.find?_cons_of_neg _ (by simpa using h)]
        exact ih

theorem mapValues_fst {β γ : Type} (m : List (Int × β)) (F : β → γ) :
    (mapValues m F).map Prod.fst = m.map Prod.fst := by
  simp [mapValues, List.map_map]

theorem mapValues_eq_self {β : Type} (m : List (Int × β)) (F : β → β)
    (h : ∀ s ∈ m, F s.2 = s.2) : mapValues m F = m := by
  unfold mapValues
  induction m with
  | nil => rfl
  | cons s rest ih =>
      rw [List.map_cons, h s (List.mem_cons_self s rest),
        ih (fun s hs => h s (List.mem_cons_of_mem _ hs))]

theorem mapValues_mapValues {β γ δ : Type} (m : List (Int × β)) (F : β → γ)
    (G : γ → δ) : mapValues (mapValues m F) G = mapValues m (fun b => G (F b)) := by
  simp [mapValues, List.map_map]

theorem filter_idem {α : Type} (l : List α) (p : α → Bool) :
    (l.filter p).filter p = l.filter p :=
  List.filter_eq_self.2 (fun _ ha => (List.mem_filter.1 ha).2)

/-- Embedding of the static `CBucketGatherer::remove` overload for a queue
of associative arrays (`CBucketGatherer.h`, map-queue overload): for every
bucket retained in the queue, erase every element whose extracted id is
found by `std::binary_search` in the sorted `toRemove` vector — i.e. keep
exactly the elements the search misses. -/
def removeFromMapQueue {α : Type} (toRemove : List Nat) (extractId : α → Nat)
    (queue : RollingWindow (List α)) : RollingWindow (List α) :=
  queue.mapPayload
    (fun bucket => bucket.filter (fun e => !(binarySearchSorted toRemove (extractId e))))

/-- Embedding of the static `CBucketGatherer::remove` overload for a queue
of vectors of associative arrays (`CBucketGatherer.h`, vector overload):
for every bucket and every position of its vector, erase every map entry
whose key's extracted id (`extractId(j->first)`) is found by
`std::binary_search` in the sorted `toRemove` vector. -/
def removeFromVecQueue {κ β : Type} (toRemove : List Nat) (extractId : κ → Nat)
    (queue : RollingWindow (List (List (κ × β)))) :
    RollingWindow (List (List (κ × β))) :=
  queue.mapPayload
    (fun buckets => buckets.map
      (fun bucket => bucket.filter
        (fun e => !(binarySearchSorted toRemove (extractId e.1)))))

/-- Modelled from the spec: the same removal sweep over an overflow
(multi-bucket) map — delete from every entry every element whose extracted
id is in the sorted id set. -/
def removeFromOverflow {α : Type} (toRemove : List Nat) (extractId : α → Nat)
    (m : List (Int × List α)) : List (Int × List α) :=
  mapValues m
    (fun bucket => bucket.filter (fun e => !(binarySearchSorted toRemove (extractId e))))

/-- Modelled from the spec: the removal sweep over an overflow map of
influencer payload vectors. -/
def removeFromOverflowVec {κ β : Type} (toRemove : List Nat) (extractId : κ → Nat)
    (m : List (Int × List (List (κ × β)))) : List (Int × List (List (κ × β))) :=
  mapValues m
    (fun buckets => buckets.map
      (fun bucket => bucket.filter
        (fun e => !(binarySearchSorted toRemove (extractId e.1)))))

/-- Modelled from the spec: `removeEntities(ids, Person)`
(`recyclePeople`) — apply the removal sweep with the person-id extractor
to every rolling window and every overflow (multi-bucket) map. -/
def recyclePeople (g : Gatherer) (toRemove : List Nat) : Gatherer :=
  { g with
      personAttributeCounts :=
        removeFromMapQueue toRemove (fun e => e.1.1) g.personAttributeCounts
      multiBucketPersonAttributeCounts :=
        removeFromOverflow toRemove (fun e => e.1.1) g.multiBucketPersonAttributeCounts
      personAttributeExplicitNulls :=
        removeFromMapQueue toRemove (fun k => k.1) g.personAttributeExplicitNulls
      multiBucketPersonAttributeExplicitNulls :=
        removeFromOverflow toRemove (fun k => k.1)
          g.multiBucketPersonAttributeExplicitNulls
      influencerCounts :=
        removeFromVecQueue toRemove (fun k => k.1.1) g.influencerCounts
      multiBucketInfluencerCounts :=
        removeFromOverflowVec toRemove (fun k => k.1.1) g.multiBucketInfluencerCounts }

/-- Modelled from the spec: `removeEntities(ids, Attribute)`
(`recycleAttributes`) — the same sweep with the attribute-id extractor. -/
def recycleAttributes (g : Gatherer) (toRemove : List Nat) : Gatherer :=
  { g with
      personAttributeCounts :=
        removeFromMapQueue toRemove (fun e => e.1.2) g.personAttributeCounts
      multiBucketPersonAttributeCounts :=
        removeFromOverflow toRemove (fun e => e.1.2) g.multiBucketPersonAttributeCounts
      personAttributeExplicitNulls :=
        removeFromMapQueue toRemove (fun k => k.2) g.personAttributeExplicitNulls
      multiBucketPersonAttributeExplicitNulls :=
        removeFromOverflow toRemove (fun k => k.2)
          g.multiBucketPersonAttributeExplicitNulls
      influencerCounts :=
        removeFromVecQueue toRemove (fun k => k.1.2) g.influencerCounts
      multiBucketInfluencerCounts :=
        removeFromOverflowVec toRemove (fun k => k.1.2) g.multiBucketInfluencerCounts }

/-- Modelled from the spec: `bucketCounts(time)` — the live pair-counts
payload for the bucket containing `time` when retained by the rolling
window; absence yields an empty result, not an error. -/
def bucketCounts (g : Gatherer) (t : Int) : PairCounts :=
  (g.personAttributeCounts.get (bucketFloor t g.bucketLength)).getD []

/-- Modelled from the spec: `influencerCounts(time)` — the live influencer
payload for the bucket containing `time` when retained; absence yields an
empty result. -/
def influencerCountsAt (g : Gatherer) (t : Int) : InfVec :=
  (g.influencerCounts.get (bucketFloor t g.bucketLength)).getD []

/-- Modelled from the spec: the explicit-null set for the bucket containing
`time` when retained; absence yields an empty result. -/
def explicitNullsAt (g : Gatherer) (t : Int) : ExplicitNulls :=
  (g.personAttributeExplicitNulls.get (bucketFloor t g.bucketLength)).getD []

theorem extract_not_mem_of_mem_filter {α : Type} (toRemove : List Nat)
    (extractId : α → Nat) (hs : List.Pairwise (· ≤ ·) toRemove) {l : List α}
    {e : α} (he : e ∈ l.filter (fun e => !(binarySearchSorted toRemove (extractId e)))) :
    extractId e ∉ toRemove := by
  intro hmem
  have hsearch := binarySearchSorted_complete hs hmem
  have := (List.mem_filter.1 he).2
  rw [hsearch] at this
  simp at this

theorem mem_getD_get_mapPayload {T : Type} {w : RollingWindow (List T)}
    {F : List T → List T} {t : Int} {e : T}
    (he : e ∈ ((w.mapPayload F).get t).getD []) :
    ∃ l, w.get t = some l ∧ e ∈ F l := by
  rw [get_mapPayload] at he
  cases hg : w.get t with
  | none => rw [hg] at he; simp at he
  | some l =>
      rw [hg] at he
      exact ⟨l, rfl, by simpa using he⟩

theorem extract_not_mem_of_mem_overflow {α : Type} (toRemove : List Nat)
    (extractId : α → Nat) (hs : List.Pairwise (· ≤ ·) toRemove)
    {m : List (Int × List α)} {s : Int × List α} {e : α}
    (hsm : s ∈ removeFromOverflow toRemove extractId m) (he : e ∈ s.2) :
    extractId e ∉ toRemove := by
  unfold removeFromOverflow mapValues at hsm
  obtain ⟨s₀, _, hmap⟩ := List.mem_map.1 hsm
  rw [← hmap] at he
  exact extract_not_mem_of_mem_filter toRemove extractId hs he

theorem extract_not_mem_of_mem_overflowVec {κ β : Type} (toRemove : List Nat)
    (extractId : κ → Nat) (hs : List.Pairwise (· ≤ ·) toRemove)
    {mm : List (Int × List (List (κ × β)))} {s : Int × List (List (κ × β))}
    {m : List (κ × β)} {e : κ × β}
    (hsm : s ∈ removeFromOverflowVec toRemove extractId mm) (hm : m ∈ s.2)
    (he : e ∈ m) : extractId e.1 ∉ toRemove := by
  unfold removeFromOverflowVec mapValues at hsm
  obtain ⟨s₀, _, hmap⟩ := List.mem_map.1 hsm
  rw [← hmap] at hm
  obtain ⟨m₀, _, hmap'⟩ := List.mem_map.1 hm
  rw [← hmap'] at he
  exact extract_not_mem_of_mem_filter toRemove (fun e : κ × β => extractId e.1) hs he

/-- C2: removal completeness — after `removeEntities(R, Person)`
(`recyclePeople`) with a sorted id set `R`, no retained bucket of any
rolling window and no entry of any overflow (multi-bucket) map contains a
key whose person id is in `R`, at every time; and symmetrically for
`removeEntities(R, Attribute)` (`recycleAttributes`) and attribute ids. -/
theorem removal_completeness (g : Gatherer) (R : List Nat)
    (hs : List.Pairwise (· ≤ ·) R) :
    (∀ t, (∀ e ∈ bucketCounts (recyclePeople g R) t, e.1.1 ∉ R) ∧
          (∀ k ∈ explicitNullsAt (recyclePeople g R) t, k.1 ∉ R) ∧
          (∀ m ∈ influencerCountsAt (recyclePeople g R) t, ∀ e ∈ m, e.1.1.1 ∉ R)) ∧
    (∀ s ∈ (recyclePeople g R).multiBucketPersonAttributeCounts,
      ∀ e ∈ s.2, e.1.1 ∉ R) ∧
    (∀ s ∈ (recyclePeople g R).multiBucketPersonAttributeExplicitNulls,
      ∀ k ∈ s.2, k.1 ∉ R) ∧
    (∀ s ∈ (recyclePeople g R).multiBucketInfluencerCounts,
      ∀ m ∈ s.2, ∀ e ∈ m, e.1.1.1 ∉ R) ∧
    (∀ t, (∀ e ∈ bucketCounts (recycleAttributes g R) t, e.1.2 ∉ R) ∧
          (∀ k ∈ explicitNullsAt (recycleAttributes g R) t, k.2 ∉ R) ∧
          (∀ m ∈ influencerCountsAt (recycleAttributes g R) t, ∀ e ∈ m, e.1.1.2 ∉ R)) ∧
    (∀ s ∈ (recycleAttributes g R).multiBucketPersonAttributeCounts,
      ∀ e ∈ s.2, e.1.2 ∉ R) ∧
    (∀ s ∈ (recycleAttributes g R).multiBucketPersonAttributeExplicitNulls,
      ∀ k ∈ s.2, k.2 ∉ R) ∧
    (∀ s ∈ (recycleAttributes g R).multiBucketInfluencerCounts,
      ∀ m ∈ s.2, ∀ e ∈ m, e.1.1.2 ∉ R) := by
  refine ⟨?_, ?_, ?_, ?_, ?_, ?_, ?_, ?_⟩
  · intro t
    refine ⟨?_, ?_, ?_⟩
    · intro e he
      obtain ⟨l, _, hef⟩ := mem_getD_get_mapPayload he
      exact extract_not_mem_of_mem_filter R (fun e : TSizeSizePr × Nat => e.1.1) hs hef
    · intro k hk
      obtain ⟨l, _, hef⟩ := mem_getD_get_mapPayload hk
      exact extract_not_mem_of_mem_filter R (fun k : TSizeSizePr => k.1) hs hef
    · intro m hm e he
      obtain ⟨l, _, hmf⟩ := mem_getD_get_mapPayload hm
      obtain ⟨m₀, _, hmap⟩ := List.mem_map.1 hmf
      rw [← hmap] at he
      exact extract_not_mem_of_mem_filter R (fun e : InfKey × Nat => e.1.1.1) hs he
  · intro s hsm e he
    exact extract_not_mem_of_mem_overflow R (fun e : TSizeSizePr × Nat => e.1.1) hs hsm he
  · intro s hsm k hk
    exact extract_not_mem_of_mem_overflow R (fun k : TSizeSizePr => k.1) hs hsm hk
  · intro s hsm m hm e he
    exact extract_not_mem_of_mem_overflowVec R (fun k : InfKey => k.1.1) hs hsm hm he
  · intro t
    refine ⟨?_, ?_, ?_⟩
    · intro e he
      obtain ⟨l, _, hef⟩ := mem_getD_get_mapPayload he
      exact extract_not_mem_of_mem_filter R (fun e : TSizeSizePr × Nat => e.1.2) hs hef
    · intro k hk
      obtain ⟨l, _, hef⟩ := mem_getD_get_mapPayload hk
      exact extract_not_mem_of_mem_filter R (fun k : TSizeSizePr => k.2) hs hef
    · intro m hm e he
      obtain ⟨l, _, hmf⟩ := mem_getD_get_mapPayload hm
      obtain ⟨m₀, _, hmap⟩ := List.mem_map.1 hmf
      rw [← hmap] at he
      exact extract_not_mem_of_mem_filter R (fun e : InfKey × Nat => e.1.1.2) hs he
  · intro s hsm e he
    exact extract_not_mem_of_mem_overflow R (fun e : TSizeSizePr × Nat => e.1.2) hs hsm he
  · intro s hsm k hk
    exact extract_not_mem_of_mem_overflow R (fun k : TSizeSizePr => k.2) hs hsm hk
  · intro s hsm m hm e he
    exact extract_not_mem_of_mem_overflowVec R (fun k : InfKey => k.1.2) hs hsm hm he

/-- A concrete gatherer with data for persons 1 and 2 in the open bucket at
time 0, an explicit null for person 1, an influencer count for person 1,
and overflow entries at time -60 for person 1. -/
def gRemoval : Gatherer :=
  { bucketLength := 60, latencyBuckets := 0, numInfluencers := 1,
    earliestTime := some 0, bucketStart := 0,
    personAttributeCounts := ⟨1, [(0, [((1, 0), 5), ((2, 0), 7)])]⟩,
    multiBucketPersonAttributeCounts := [(-60, [((1, 3), 2)])],
    personAttributeExplicitNulls := ⟨1, [(0, [(1, 0)])]⟩,
    multiBucketPersonAttributeExplicitNulls := [(-60, [(1, 3)])],
    influencerCounts := ⟨1, [(0, [[(((1, 0), "x"), 3)]])]⟩,
    multiBucketInfluencerCounts := [(-60, [[(((1, 3), "y"), 2)]])] }

/-- Witness for C2: after removing person 1 from `gRemoval`, the pair
`((1, 0), 5)` is gone from the bucket at time 0. -/
theorem removal_completeness_witness :
    ((1, 0), 5) ∉ bucketCounts (recyclePeople gRemoval [1]) 0 := by
  intro hmem
  have h := (removal_completeness gRemoval [1] (by decide)).1 0
  exact absurd (by decide : (1 : Nat) ∈ [1]) (h.1 ((1, 0), 5) hmem)

theorem not_binarySearch_of_not_mem {R : List Nat} {x : Nat} (hx : x ∉ R) :
    (!(binarySearchSorted R x)) = true := by
  rw [binarySearchSorted_eq_false_of_not_mem hx]
  rfl

theorem mapPayload_filter_eq_self {α : Type} (w : RollingWindow (List α))
    (p : α → Bool) (h : ∀ s ∈ w.slots, ∀ e ∈ s.2, p e = true) :
    w.mapPayload (fun b => b.filter p) = w := by
  unfold RollingWindow.mapPayload
  rw [mapValues_eq_self]
  · intro s hsl
    exact List.filter_eq_self.2 (h s hsl)

theorem mapPayload_vecfilter_eq_self {κ β : Type}
    (w : RollingWindow (List (List (κ × β)))) (p : κ × β → Bool)
    (h : ∀ s ∈ w.slots, ∀ m ∈ s.2, ∀ e ∈ m, p e = true) :
    w.mapPayload (fun bs => bs.map (fun b => b.filter p)) = w := by
  unfold RollingWindow.mapPayload
  rw [mapValues_eq_self]
  · intro s hsl
    have hmm : ∀ m ∈ s.2, m.filter p = m :=
      fun m hm => List.filter_eq_self.2 (h s hsl m hm)
    calc s.2.map (fun b => b.filter p) = s.2.map id :=
          List.map_congr_left (fun m hm => hmm m hm)
      _ = s.2 := List.map_id s.2

theorem overflow_filter_eq_self {α : Type} (m : List (Int × List α)) (p : α → Bool)
    (h : ∀ s ∈ m, ∀ e ∈ s.2, p e = true) :
    mapValues m (fun b => b.filter p) = m := by
  rw [mapValues_eq_self]
  intro s hsl
  exact List.filter_eq_self.2 (h s hsl)

theorem overflow_vecfilter_eq_self {κ β : Type}
    (m : List (Int × List (List (κ × β)))) (p : κ × β → Bool)
    (h : ∀ s ∈ m, ∀ mm ∈ s.2, ∀ e ∈ mm, p e = true) :
    mapValues m (fun bs => bs.map (fun b => b.filter p)) = m := by
  rw [mapValues_eq_self]
  intro s hsl
  have hmm : ∀ mm ∈ s.2, mm.filter p = mm :=
    fun mm hm => List.filter_eq_self.2 (h s hsl mm hm)
  calc s.2.map (fun b => b.filter p) = s.2.map id :=
        List.map_congr_left (fun mm hm => hmm mm hm)
    _ = s.2 := List.map_id s.2

theorem mapPayload_filter_idem {α : Type} (w : RollingWindow (List α)) (p : α → Bool) :
    (w.mapPayload (fun b => b.filter p)).mapPayload (fun b => b.filter p)
      = w.mapPayload (fun b => b.filter p) := by
  unfold RollingWindow.mapPayload
  simp only [mapValues_mapValues]
  have hfe : (fun b : List α => (b.filter p).filter p) = fun b : List α => b.filter p :=
    funext (fun b => filter_idem b p)
  rw [hfe]

theorem mapPayload_vecfilter_idem {κ β : Type}
    (w : RollingWindow (List (List (κ × β)))) (p : κ × β → Bool) :
    (w.mapPayload (fun bs => bs.map (fun b => b.filter p))).mapPayload
        (fun bs => bs.map (fun b => b.filter p))
      = w.mapPayload (fun bs => bs.map (fun b => b.filter p)) := by
  unfold RollingWindow.mapPayload
  simp only [mapValues_mapValues]
  have hfe : (fun bs : List (List (κ × β)) =>
      (bs.map (fun b => b.filter p)).map (fun b => b.filter p))
        = fun bs : List (List (κ × β)) => bs.map (fun b => b.filter p) := by
    funext bs
    rw [List.map_map]
    exact List.map_congr_left (fun b _ => filter_idem b p)
  rw [hfe]

theorem overflow_filter_idem {α : Type} (m : List (Int × List α)) (p : α → Bool) :
    mapValues (mapValues m (fun b => b.filter p)) (fun b => b.filter p)
      = mapValues m (fun b => b.filter p) := by
  rw [mapValues_mapValues]
  have hfe : (fun b : List α => (b.filter p).filter p) = fun b : List α => b.filter p :=
    funext (fun b => filter_idem b p)
  rw [hfe]

theorem overflow_vecfilter_idem {κ β : Type}
    (m : List (Int × List (List (κ × β)))) (p : κ × β → Bool) :
    mapValues (mapValues m (fun bs => bs.map (fun b => b.filter p)))
        (fun bs => bs.map (fun b => b.filter p))
      = mapValues m (fun bs => bs.map (fun b => b.filter p)) := by
  rw [mapValues_mapValues]
  have hfe : (fun bs : List (List (κ × β)) =>
      (bs.map (fun b => b.filter p)).map (fun b => b.filter p))
        = fun bs : List (List (κ × β)) => bs.map (fun b => b.filter p) := by
    funext bs
    rw [List.map_map]
    exact List.map_congr_left (fun b _ => filter_idem b p)
  rw [hfe]

/-- No key anywhere in the gatherer state references a person id in `R`:
the id is absent from every retained window slot and every overflow
entry of every aggregate kind. -/
def personIdAbsent (g : Gatherer) (R : List Nat) : Prop :=
  (∀ s ∈ g.personAttributeCounts.slots, ∀ e ∈ s.2, e.1.1 ∉ R) ∧
  (∀ s ∈ g.multiBucketPersonAttributeCounts, ∀ e ∈ s.2, e.1.1 ∉ R) ∧
  (∀ s ∈ g.personAttributeExplicitNulls.slots, ∀ k ∈ s.2, k.1 ∉ R) ∧
  (∀ s ∈ g.multiBucketPersonAttributeExplicitNulls, ∀ k ∈ s.2, k.1 ∉ R) ∧
  (∀ s ∈ g.influencerCounts.slots, ∀ m ∈ s.2, ∀ e ∈ m, e.1.1.1 ∉ R) ∧
  (∀ s ∈ g.multiBucketInfluencerCounts, ∀ m ∈ s.2, ∀ e ∈ m, e.1.1.1 ∉ R)

/-- No key anywhere in the gatherer state references an attribute id in
`R`. -/
def attributeIdAbsent (g : Gatherer) (R : List Nat) : Prop :=
  (∀ s ∈ g.personAttributeCounts.slots, ∀ e ∈ s.2, e.1.2 ∉ R) ∧
  (∀ s ∈ g.multiBucketPersonAttributeCounts, ∀ e ∈ s.2, e.1.2 ∉ R) ∧
  (∀ s ∈ g.personAttributeExplicitNulls.slots, ∀ k ∈ s.2, k.2 ∉ R) ∧
  (∀ s ∈ g.multiBucketPersonAttributeExplicitNulls, ∀ k ∈ s.2, k.2 ∉ R) ∧
  (∀ s ∈ g.influencerCounts.slots, ∀ m ∈ s.2, ∀ e ∈ m, e.1.1.2 ∉ R) ∧
  (∀ s ∈ g.multiBucketInfluencerCounts, ∀ m ∈ s.2, ∀ e ∈ m, e.1.1.2 ∉ R)

/-- C8: removal idempotence — removing ids that are absent everywhere is a
benign no-op (the state is unchanged, not an error), and applying the same
removal twice leaves exactly the state of applying it once; both for person
removal and for attribute removal. -/
theorem removal_idempotent (g : Gatherer) (R : List Nat) :
    (personIdAbsent g R → recyclePeople g R = g) ∧
    recyclePeople (recyclePeople g R) R = recyclePeople g R ∧
    (attributeIdAbsent g R → recycleAttributes g R = g) ∧
    recycleAttributes (recycleAttributes g R) R = recycleAttributes g R := by
  refine ⟨?_, ?_, ?_, ?_⟩
  · intro habs
    obtain ⟨h1, h2, h3, h4, h5, h6⟩ := habs
    have e1 : removeFromMapQueue R (fun e => e.1.1) g.personAttributeCounts
        = g.personAttributeCounts :=
      mapPayload_filter_eq_self _ _
        (fun s hsl e he => not_binarySearch_of_not_mem (h1 s hsl e he))
    have e2 : removeFromOverflow R (fun e => e.1.1) g.multiBucketPersonAttributeCounts
        = g.multiBucketPersonAttributeCounts :=
      overflow_filter_eq_self _ _
        (fun s hsl e he => not_binarySearch_of_not_mem (h2 s hsl e he))
    have e3 : removeFromMapQueue R (fun k => k.1) g.personAttributeExplicitNulls
        = g.personAttributeExplicitNulls :=
      mapPayload_filter_eq_self _ _
        (fun s hsl k hk => not_binarySearch_of_not_mem (h3 s hsl k hk))
    have e4 : removeFromOverflow R (fun k => k.1)
          g.multiBucketPersonAttributeExplicitNulls
        = g.multiBucketPersonAttributeExplicitNulls :=
      overflow_filter_eq_self _ _
        (fun s hsl k hk => not_binarySearch_of_not_mem (h4 s hsl k hk))
    have e5 : removeFromVecQueue R (fun k => k.1.1) g.influencerCounts
        = g.influencerCounts :=
      mapPayload_vecfilter_eq_self _ _
        (fun s hsl m hm e he => not_binarySearch_of_not_mem (h5 s hsl m hm e he))
    have e6 : removeFromOverflowVec R (fun k => k.1.1) g.multiBucketInfluencerCounts
        = g.multiBucketInfluencerCounts :=
      overflow_vecfilter_eq_self _ _
        (fun s hsl m hm e he => not_binarySearch_of_not_mem (h6 s hsl m hm e he))
    simp only [recyclePeople, e1, e2, e3, e4, e5, e6]
  · have i1 : removeFromMapQueue R (fun e : TSizeSizePr × Nat => e.1.1)
        (removeFromMapQueue R (fun e : TSizeSizePr × Nat => e.1.1)
          g.personAttributeCounts)
        = removeFromMapQueue R (fun e : TSizeSizePr × Nat => e.1.1)
          g.personAttributeCounts :=
      mapPayload_filter_idem g.personAttributeCounts _
    have i2 : removeFromOverflow R (fun e : TSizeSizePr × Nat => e.1.1)
        (removeFromOverflow R (fun e : TSizeSizePr × Nat => e.1.1)
          g.multiBucketPersonAttributeCounts)
        = removeFromOverflow R (fun e : TSizeSizePr × Nat => e.1.1)
          g.multiBucketPersonAttributeCounts :=
      overflow_filter_idem g.multiBucketPersonAttributeCounts _
    have i3 : removeFromMapQueue R (fun k : TSizeSizePr => k.1)
        (removeFromMapQueue R (fun k : TSizeSizePr => k.1)
          g.personAttributeExplicitNulls)
        = removeFromMapQueue R (fun k : TSizeSizePr => k.1)
          g.personAttributeExplicitNulls :=
      mapPayload_filter_idem g.personAttributeExplicitNulls _
    have i4 : removeFromOverflow R (fun k : TSizeSizePr => k.1)
        (removeFromOverflow R (fun k : TSizeSizePr => k.1)
          g.multiBucketPersonAttributeExplicitNulls)
        = removeFromOverflow R (fun k : TSizeSizePr => k.1)
          g.multiBucketPersonAttributeExplicitNulls :=
      overflow_filter_idem g.multiBucketPersonAttributeExplicitNulls _
    have i5 : removeFromVecQueue R (fun k : InfKey => k.1.1)
        (removeFromVecQueue R (fun k : InfKey => k.1.1) g.influencerCounts)
        = removeFromVecQueue R (fun k : InfKey => k.1.1) g.influencerCounts :=
      mapPayload_vecfilter_idem g.influencerCounts _
    have i6 : removeFromOverflowVec R (fun k : InfKey => k.1.1)
        (removeFromOverflowVec R (fun k : InfKey => k.1.1)
          g.multiBucketInfluencerCounts)
        = removeFromOverflowVec R (fun k : InfKey => k.1.1)
          g.multiBucketInfluencerCounts :=
      overflow_vecfilter_idem g.multiBucketInfluencerCounts _
    simp only [recyclePeople, i1, i2, i3, i4, i5, i6]
  · intro habs
    obtain ⟨h1, h2, h3, h4, h5, h6⟩ := habs
    have e1 : removeFromMapQueue R (fun e => e.1.2) g.personAttributeCounts
        = g.personAttributeCounts :=
      mapPayload_filter_eq_self _ _
        (fun s hsl e he => not_binarySearch_of_not_mem (h1 s hsl e he))
    have e2 : removeFromOverflow R (fun e => e.1.2) g.multiBucketPersonAttributeCounts
        = g.multiBucketPersonAttributeCounts :=
      overflow_filter_eq_self _ _
        (fun s hsl e he => not_binarySearch_of_not_mem (h2 s hsl e he))
    have e3 : removeFromMapQueue R (fun k => k.2) g.personAttributeExplicitNulls
        = g.personAttributeExplicitNulls :=
      mapPayload_filter_eq_self _ _
        (fun s hsl k hk => not_binarySearch_of_not_mem (h3 s hsl k hk))
    have e4 : removeFromOverflow R (fun k => k.2)
          g.multiBucketPersonAttributeExplicitNulls
        = g.multiBucketPersonAttributeExplicitNulls :=
      overflow_filter_eq_self _ _
        (fun s hsl k hk => not_binarySearch_of_not_mem (h4 s hsl k hk))
    have e5 : removeFromVecQueue R (fun k => k.1.2) g.influencerCounts
        = g.influencerCounts :=
      mapPayload_vecfilter_eq_self _ _
        (fun s hsl m hm e he => not_binarySearch_of_not_mem (h5 s hsl m hm e he))
    have e6 : removeFromOverflowVec R (fun k => k.1.2) g.multiBucketInfluencerCounts
        = g.multiBucketInfluencerCounts :=
      overflow_vecfilter_eq_self _ _
        (fun s hsl m hm e he => not_binarySearch_of_not_mem (h6 s hsl m hm e he))
    simp only [recycleAttributes, e1, e2, e3, e4, e5, e6]
  · have i1 : removeFromMapQueue R (fun e : TSizeSizePr × Nat => e.1.2)
        (removeFromMapQueue R (fun e : TSizeSizePr × Nat => e.1.2)
          g.personAttributeCounts)
        = removeFromMapQueue R (fun e : TSizeSizePr × Nat => e.1.2)
          g.personAttributeCounts :=
      mapPayload_filter_idem g.personAttributeCounts _
    have i2 : removeFromOverflow R (fun e : TSizeSizePr × Nat => e.1.2)
        (removeFromOverflow R (fun e : TSizeSizePr × Nat => e.1.2)
          g.multiBucketPersonAttributeCounts)
        = removeFromOverflow R (fun e : TSizeSizePr × Nat => e.1.2)
          g.multiBucketPersonAttributeCounts :=
      overflow_filter_idem g.multiBucketPersonAttributeCounts _
    have i3 : removeFromMapQueue R (fun k : TSizeSizePr => k.2)
        (removeFromMapQueue R (fun k : TSizeSizePr => k.2)
          g.personAttributeExplicitNulls)
        = removeFromMapQueue R (fun k : TSizeSizePr => k.2)
          g.personAttributeExplicitNulls :=
      mapPayload_filter_idem g.personAttributeExplicitNulls _
    have i4 : removeFromOverflow R (fun k : TSizeSizePr => k.2)
        (removeFromOverflow R (fun k : TSizeSizePr => k.2)
          g.multiBucketPersonAttributeExplicitNulls)
        = removeFromOverflow R (fun k : TSizeSizePr => k.2)
          g.multiBucketPersonAttributeExplicitNulls :=
      overflow_filter_idem g.multiBucketPersonAttributeExplicitNulls _
    have i5 : removeFromVecQueue R (fun k : InfKey => k.1.2)
        (removeFromVecQueue R (fun k : InfKey => k.1.2) g.influencerCounts)
        = removeFromVecQueue R (fun k : InfKey => k.1.2) g.influencerCounts :=
      mapPayload_vecfilter_idem g.influencerCounts _
    have i6 : removeFromOverflowVec R (fun k : InfKey => k.1.2)
        (removeFromOverflowVec R (fun k : InfKey => k.1.2)
          g.multiBucketInfluencerCounts)
        = removeFromOverflowVec R (fun k : InfKey => k.1.2)
          g.multiBucketInfluencerCounts :=
      overflow_vecfilter_idem g.multiBucketInfluencerCounts _
    simp only [recycleAttributes, i1, i2, i3, i4, i5, i6]

/-- Witness for C8: removing the everywhere-absent ids 5 (person) and 9
(attribute) from `gRemoval` changes nothing, and removing person 1 twice
equals removing person 1 once. -/
theorem removal_idempotent_witness :
    recyclePeople gRemoval [5] = gRemoval ∧
    recyclePeople (recyclePeople gRemoval [1]) [1] = recyclePeople gRemoval [1] ∧
    recycleAttributes gRemoval [9] = gRemoval := by
  refine ⟨?_, (removal_idempotent gRemoval [1]).2.1, ?_⟩
  · exact (removal_idempotent gRemoval [5]).1 (by unfold personIdAbsent; decide)
  · exact (removal_idempotent gRemoval [9]).2.2.1
      (by unfold attributeIdAbsent; decide)

theorem forall₂_map_self {α β : Type} {r : α → β → Prop} {l : List α} {h : α → β}
    (hr : ∀ a ∈ l, r a (h a)) : List.Forall₂ r l (l.map h) := by
  induction l with
  | nil => exact List.Forall₂.nil
  | cons a rest ih =>
      exact List.Forall₂.cons (hr a (List.mem_cons_self a rest))
        (ih (fun a ha => hr a (List.mem_cons_of_mem _ ha)))

/-- C10: removal frame property — for every sorted id vector, every bucket
queue and every id extractor, the static `remove` sweeps delete only
entries whose extracted id is in `toRemove`: the number and times of
retained buckets are unchanged, each new bucket is a sublist of the old
one, every entry whose id is outside `toRemove` is still present with its
mapped value unchanged, and every surviving entry has its id outside
`toRemove`; both for the map-queue overload and, per influencer position,
for the vector-of-maps overload. -/
theorem remove_frame {α κ β : Type} (R : List Nat) (f : α → Nat) (fk : κ → Nat)
    (w : RollingWindow (List α)) (wv : RollingWindow (List (List (κ × β))))
    (hs : List.Pairwise (· ≤ ·) R) :
    ((removeFromMapQueue R f w).capacity = w.capacity ∧
     (removeFromMapQueue R f w).slots.map Prod.fst = w.slots.map Prod.fst ∧
     List.Forall₂ (fun s s' : Int × List α =>
         s'.1 = s.1 ∧ s'.2.Sublist s.2 ∧
         (∀ e ∈ s.2, f e ∉ R → e ∈ s'.2) ∧
         (∀ e ∈ s'.2, f e ∉ R))
       w.slots (removeFromMapQueue R f w).slots) ∧
    ((removeFromVecQueue R fk wv).capacity = wv.capacity ∧
     (removeFromVecQueue R fk wv).slots.map Prod.fst = wv.slots.map Prod.fst ∧
     List.Forall₂ (fun s s' : Int × List (List (κ × β)) =>
         s'.1 = s.1 ∧
         List.Forall₂ (fun m m' : List (κ × β) =>
             m'.Sublist m ∧ (∀ e ∈ m, fk e.1 ∉ R → e ∈ m') ∧
             (∀ e ∈ m', fk e.1 ∉ R)) s.2 s'.2)
       wv.slots (removeFromVecQueue R fk wv).slots) := by
  constructor
  · refine ⟨rfl, mapValues_fst _ _, ?_⟩
    apply forall₂_map_self
    intro s _
    refine ⟨rfl, List.filter_sublist _, ?_, ?_⟩
    · intro e he hef
      exact List.mem_filter.2 ⟨he, not_binarySearch_of_not_mem hef⟩
    · intro e he
      exact extract_not_mem_of_mem_filter R f hs he
  · refine ⟨rfl, mapValues_fst _ _, ?_⟩
    apply forall₂_map_self
    intro s _
    refine ⟨rfl, ?_⟩
    apply forall₂_map_self
    intro m _
    refine ⟨List.filter_sublist _, ?_, ?_⟩
    · intro e he hef
      exact List.mem_filter.2 ⟨he, not_binarySearch_of_not_mem hef⟩
    · intro e he
      exact extract_not_mem_of_mem_filter R (fun e : κ × β => fk e.1) hs he

/-- Witness for C10: the sweeps at a concrete queue keep the bucket times
unchanged. -/
theorem remove_frame_witness :
    (removeFromMapQueue [1] (fun e : TSizeSizePr × Nat => e.1.1)
      (⟨1, [(0, [((1, 0), 5), ((2, 0), 7)])]⟩ : RollingWindow PairCounts)).slots.map
        Prod.fst
      = ((⟨1, [(0, [((1, 0), 5), ((2, 0), 7)])]⟩ :
          RollingWindow PairCounts)).slots.map Prod.fst ∧
    (removeFromVecQueue [1] (fun k : InfKey => k.1.1)
      (⟨1, [(0, [[(((1, 0), "x"), 3)]])]⟩ :
        RollingWindow InfVec)).slots.map Prod.fst
      = ((⟨1, [(0, [[(((1, 0), "x"), 3)]])]⟩ :
          RollingWindow InfVec)).slots.map Prod.fst := by
  have h := remove_frame [1] (fun e : TSizeSizePr × Nat => e.1.1)
    (fun k : InfKey => k.1.1)
    (⟨1, [(0, [((1, 0), 5), ((2, 0), 7)])]⟩ : RollingWindow PairCounts)
    (⟨1, [(0, [[(((1, 0), "x"), 3)]])]⟩ : RollingWindow InfVec)
    (by decide)
  exact ⟨h.1.2.1, h.2.2.1⟩

/-- Modelled from the spec: open the bucket starting at `t` — push a
fresh, empty payload into every rolling window and advance the current
bucket start (`startNewBucket`). -/
def pushNewBucket (g : Gatherer) (t : Int) : Gatherer :=
  { g with
      bucketStart := t
      personAttributeCounts := g.personAttributeCounts.push t []
      personAttributeExplicitNulls := g.personAttributeExplicitNulls.push t []
      influencerCounts := g.influencerCounts.push t (emptyInfVec g) }

/-- Modelled from the spec: roll forward across `n` bucket boundaries, one
bucket length at a time, recording each boundary crossed — one
"bucket closed" callback per boundary — in increasing order. -/
def rollBuckets : Nat → Gatherer → Gatherer × List Int
  | 0, g => (g, [])
  | n + 1, g =>
      let b := g.bucketStart + g.bucketLength
      let g' := pushNewBucket g b
      let r := rollBuckets n g'
      (r.1, b :: r.2)

/-- Modelled from the spec: `hiddenTimeNow(time, skipUpdates)`
(`advanceTime`): compute the bucket-aligned floor of the target time; when
it is at or before the current bucket start nothing happens (time never
moves backward); otherwise roll one bucket boundary at a time up to the
floor, invoking the bucket-closed callback once per boundary unless
`skipUpdates` suppresses the callbacks (the roll still occurs
structurally).  Returns the new state and the callback times in order. -/
def hiddenTimeNow (g : Gatherer) (time : Int) (skipUpdates : Bool) :
    Gatherer × List Int :=
  let nf := bucketFloor time g.bucketLength
  if nf ≤ g.bucketStart then (g, [])
  else
    let n := ((nf - g.bucketStart) / g.bucketLength).toNat
    let r := rollBuckets n g
    (r.1, if skipUpdates then [] else r.2)

/-- The bucket boundaries strictly after `old`, up to and including `nf`,
in increasing order. -/
def bucketBoundaries (old nf len : Int) : List Int :=
  (List.range ((nf - old) / len).toNat).map
    (fun i : Nat => old + ((i : Int) + 1) * len)

theorem rollBuckets_spec (n : Nat) : ∀ g : Gatherer,
    (rollBuckets n g).1.bucketStart = g.bucketStart + (n : Int) * g.bucketLength ∧
    (rollBuckets n g).2 =
      (List.range n).map
        (fun i : Nat => g.bucketStart + ((i : Int) + 1) * g.bucketLength) := by
  induction n with
  | zero =>
      intro g
      simp [rollBuckets]
  | succ n ih =>
      intro g
      simp only [rollBuckets]
      have hbl : (pushNewBucket g (g.bucketStart + g.bucketLength)).bucketLength
          = g.bucketLength := rfl
      have hbs : (pushNewBucket g (g.bucketStart + g.bucketLength)).bucketStart
          = g.bucketStart + g.bucketLength := rfl
      obtain ⟨h1, h2⟩ := ih (pushNewBucket g (g.bucketStart + g.bucketLength))
      constructor
      · rw [h1, hbs, hbl]
        push_cast
        ring
      · rw [h2, hbs, hbl, List.range_succ_eq_map, List.map_cons, List.map_map,
          List.cons.injEq]
        constructor
        · push_cast
          ring
        · apply List.map_congr_left
          intro i _
          simp only [Function.comp]
          push_cast
          ring

/-- C4: time rolling — an `advanceTime` whose target's bucket floor is at
or before the current bucket start changes nothing; otherwise the state
ends with the current bucket start at the new floor, the bucket-closed
callback fires once per boundary strictly between the old start (exclusive)
and the floor (inclusive), in strictly increasing order — and with
`skipUpdates` set the callbacks are suppressed while the roll still
occurs. -/
theorem advanceTime_rolls (g : Gatherer) (time : Int) (skip : Bool)
    (hlen : 0 < g.bucketLength) (hdvd : g.bucketLength ∣ g.bucketStart) :
    (bucketFloor time g.bucketLength ≤ g.bucketStart →
      hiddenTimeNow g time skip = (g, [])) ∧
    (g.bucketStart < bucketFloor time g.bucketLength →
      (hiddenTimeNow g time skip).1.bucketStart = bucketFloor time g.bucketLength ∧
      (hiddenTimeNow g time skip).2 =
        (if skip then []
         else bucketBoundaries g.bucketStart (bucketFloor time g.bucketLength)
           g.bucketLength) ∧
      List.Chain' (· < ·)
        (bucketBoundaries g.bucketStart (bucketFloor time g.bucketLength)
          g.bucketLength) ∧
      (∀ b, b ∈ bucketBoundaries g.bucketStart (bucketFloor time g.bucketLength)
          g.bucketLength ↔
        g.bucketStart < b ∧ b ≤ bucketFloor time g.bucketLength ∧
          g.bucketLength ∣ (b - g.bucketStart))) := by
  constructor
  · intro h
    simp only [hiddenTimeNow]
    rw [if_pos h]
  · intro h
    have hnl : ¬ bucketFloor time g.bucketLength ≤ g.bucketStart := not_le.2 h
    obtain ⟨k, hk⟩ : g.bucketLength ∣ (bucketFloor time g.bucketLength - g.bucketStart) :=
      (bucketFloor_dvd time g.bucketLength).sub hdvd
    have hlen0 : g.bucketLength ≠ 0 := ne_of_gt hlen
    have hdivk : (bucketFloor time g.bucketLength - g.bucketStart) / g.bucketLength
        = k := by
      rw [hk, Int.mul_ediv_cancel_left _ hlen0]
    have hkpos : 0 < k := by
      by_contra hknp
      push_neg at hknp
      have hle : g.bucketLength * k ≤ g.bucketLength * 0 :=
        mul_le_mul_of_nonneg_left hknp (le_of_lt hlen)
      rw [mul_zero] at hle
      rw [← hk] at hle
      omega
    have hkn : ((k.toNat : Int)) = k := Int.toNat_of_nonneg (le_of_lt hkpos)
    have hroll := rollBuckets_spec
      ((bucketFloor time g.bucketLength - g.bucketStart) / g.bucketLength).toNat g
    have hn : (((bucketFloor time g.bucketLength - g.bucketStart)
        / g.bucketLength).toNat : Int)
        = (bucketFloor time g.bucketLength - g.bucketStart) / g.bucketLength := by
      rw [hdivk]
      exact hkn
    have hbb : bucketBoundaries g.bucketStart (bucketFloor time g.bucketLength)
        g.bucketLength =
        (List.range ((bucketFloor time g.bucketLength - g.bucketStart)
          / g.bucketLength).toNat).map
          (fun i : Nat => g.bucketStart + ((i : Int) + 1) * g.bucketLength) := rfl
    have hstate : hiddenTimeNow g time skip =
        ((rollBuckets ((bucketFloor time g.bucketLength - g.bucketStart)
            / g.bucketLength).toNat g).1,
         if skip then []
         else (rollBuckets ((bucketFloor time g.bucketLength - g.bucketStart)
            / g.bucketLength).toNat g).2) := by
      simp only [hiddenTimeNow]
      rw [if_neg hnl]
    refine ⟨?_, ?_, ?_, ?_⟩
    · rw [hstate]
      rw [hroll.1, hn, hdivk, mul_comm]
      linarith [hk]
    · rw [hstate]
      cases skip with
      | false => simp [hroll.2, hbb]
      | true => simp
    · rw [hbb]
      apply List.Pairwise.chain'
      refine List.Pairwise.map _ ?_ (List.sorted_lt_range _)
      intro a b hab
      have hcast : ((a : Int) + 1) < ((b : Int) + 1) := by omega
      exact add_lt_add_left (mul_lt_mul_of_pos_right hcast hlen) g.bucketStart
    · intro b
      rw [hbb]
      constructor
      · intro hb
        obtain ⟨i, hi, hib⟩ := List.mem_map.1 hb
        have hin : i < ((bucketFloor time g.bucketLength - g.bucketStart)
            / g.bucketLength).toNat := List.mem_range.1 hi
        have hiles : ((i : Int) + 1) ≤ k := by
          rw [← hkn]
          exact_mod_cast Nat.succ_le_of_lt (by omega)
        refine ⟨?_, ?_, ?_⟩
        · rw [← hib]
          have hpos : 0 < ((i : Int) + 1) * g.bucketLength := by
            apply mul_pos _ hlen
            positivity
          exact lt_add_of_pos_right _ hpos
        · rw [← hib]
          have hle : ((i : Int) + 1) * g.bucketLength ≤ k * g.bucketLength :=
            mul_le_mul_of_nonneg_right hiles (le_of_lt hlen)
          have hkk : k * g.bucketLength
              = bucketFloor time g.bucketLength - g.bucketStart := by
            rw [mul_comm]
            exact hk.symm
          linarith [hle, hkk]
        · rw [← hib]
          exact ⟨(i : Int) + 1, by ring⟩
      · rintro ⟨hb1, hb2, j, hj⟩
        have hjpos : 0 < j := by
          by_contra hjnp
          push_neg at hjnp
          have hle : g.bucketLength * j ≤ g.bucketLength * 0 :=
            mul_le_mul_of_nonneg_left hjnp (le_of_lt hlen)
          rw [mul_zero] at hle
          rw [← hj] at hle
          omega
        have hjk : j ≤ k := by
          have h1 : g.bucketLength * j ≤ g.bucketLength * k := by
            rw [← hj, ← hk]
            omega
          exact le_of_mul_le_mul_left h1 hlen
        refine List.mem_map.2 ⟨(j - 1).toNat, ?_, ?_⟩
        · rw [List.mem_range]
          omega
        · have hcast : (((j - 1).toNat : Int)) = j - 1 :=
            Int.toNat_of_nonneg (by omega)
          rw [hcast]
          have hprod : (j - 1 + 1) * g.bucketLength = g.bucketLength * j := by ring
          rw [hprod]
          linarith [hj]

/-- Witness for C4: advancing `gWitness` (bucket length 60, start 0) to
time 130 finalizes the boundaries 60 and 120, in order, and ends with the
current bucket start at 120. -/
theorem advanceTime_rolls_witness :
    (hiddenTimeNow gWitness 130 false).1.bucketStart = 120 ∧
    (hiddenTimeNow gWitness 130 false).2 = [60, 120] := by
  have h := (advanceTime_rolls gWitness 130 false (by decide)
    (Dvd.intro 0 (by decide))).2 (by decide)
  exact ⟨h.1.trans (by decide), h.2.1.trans (by decide)⟩

/-- Insert a person id into a strictly ascending id list, keeping it sorted
and duplicate-free. -/
def insertPid (p : Nat) : List Nat → List Nat
  | [] => [p]
  | q :: rest =>
      if p < q then p :: q :: rest
      else if p = q then q :: rest
      else q :: insertPid p rest

/-- The ascending, duplicate-free list of person ids occurring in a bucket
payload. -/
def collectPids (m : PairCounts) : List Nat :=
  m.foldr (fun e acc => insertPid e.1.1 acc) []

/-- The count recorded for person `pid`, summed across all attributes, in a
bucket payload. -/
def personSum (m : PairCounts) (pid : Nat) : Nat :=
  ((m.filter (fun e => decide (e.1.1 = pid))).map (fun e => e.2)).sum

/-- Modelled from the spec: `personNonZeroCounts(time)` — the sparse list
of (person id, summed count across attributes) pairs with non-zero count,
sorted ascending by person id, derived from `bucketCounts`. -/
def personNonZeroCounts (g : Gatherer) (t : Int) : List (Nat × Nat) :=
  (collectPids (bucketCounts g t)).filterMap
    (fun pid =>
      if personSum (bucketCounts g t) pid = 0 then none
      else some (pid, personSum (bucketCounts g t) pid))

theorem mem_insertPid {x p : Nat} : ∀ {l : List Nat},
    x ∈ insertPid p l ↔ x = p ∨ x ∈ l := by
  intro l
  induction l with
  | nil => simp [insertPid]
  | cons q rest ih =>
      by_cases h1 : p < q
      · simp [insertPid, h1]
      · by_cases h2 : p = q
        · subst h2
          simp only [insertPid]
          rw [if_neg h1, if_pos trivial]
          simp only [List.mem_cons]
          tauto
        · simp only [insertPid, if_neg h1, if_neg h2, List.mem_cons, ih]
          tauto

theorem pairwise_insertPid {p : Nat} : ∀ {l : List Nat},
    List.Pairwise (· < ·) l → List.Pairwise (· < ·) (insertPid p l) := by
  intro l
  induction l with
  | nil =>
      intro _
      simp [insertPid]
  | cons q rest ih =>
      intro h
      have h' := List.pairwise_cons.1 h
      by_cases h1 : p < q
      · simp only [insertPid, if_pos h1]
        refine List.pairwise_cons.2 ⟨?_, h⟩
        intro x hx
        rcases List.mem_cons.1 hx with rfl | hx'
        · exact h1
        · exact lt_trans h1 (h'.1 x hx')
      · by_cases h2 : p = q
        · simp only [insertPid, if_neg h1, if_pos h2]
          exact h
        · simp only [insertPid, if_neg h1, if_neg h2]
          refine List.pairwise_cons.2 ⟨?_, ih h'.2⟩
          intro x hx
          rcases mem_insertPid.1 hx with rfl | hx'
          · omega
          · exact h'.1 x hx'

theorem pairwise_collectPids (m : PairCounts) :
    List.Pairwise (· < ·) (collectPids m) := by
  induction m with
  | nil => simp [collectPids]
  | cons e rest ih => exact pairwise_insertPid ih

theorem mem_collectPids {m : PairCounts} {pid : Nat} :
    pid ∈ collectPids m ↔ ∃ e ∈ m, e.1.1 = pid := by
  induction m with
  | nil => simp [collectPids]
  | cons e rest ih =>
      simp only [collectPids, List.foldr_cons] at ih ⊢
      rw [mem_insertPid]
      constructor
      · rintro (rfl | h)
        · exact ⟨e, List.mem_cons_self e rest, rfl⟩
        · obtain ⟨e', he', hpe⟩ := ih.1 h
          exact ⟨e', List.mem_cons_of_mem _ he', hpe⟩
      · rintro ⟨e', he', hpe⟩
        rcases List.mem_cons.1 he' with rfl | he''
        · exact Or.inl hpe.symm
        · exact Or.inr (ih.2 ⟨e', he'', hpe⟩)

theorem exists_entry_of_personSum_ne_zero {m : PairCounts} {pid : Nat}
    (h : personSum m pid ≠ 0) : ∃ e ∈ m, e.1.1 = pid := by
  by_contra hne
  push_neg at hne
  have hfil : m.filter (fun e => decide (e.1.1 = pid)) = [] := by
    rw [List.filter_eq_nil_iff]
    intro e he
    simpa using hne e he
  unfold personSum at h
  rw [hfil] at h
  simp at h

/-- C9: sorted sparse output — at every time, `personNonZeroCounts` is
strictly ascending by person id, contains no entry with count 0, each
entry's count is the sum of that person's pair counts across all attributes
in the bucket containing the time, and every person with a non-zero summed
count appears. -/
theorem person_non_zero_counts_sorted (g : Gatherer) (t : Int) :
    List.Pairwise (fun a b : Nat × Nat => a.1 < b.1) (personNonZeroCounts g t) ∧
    (∀ p ∈ personNonZeroCounts g t, p.2 ≠ 0) ∧
    (∀ p ∈ personNonZeroCounts g t, p.2 = personSum (bucketCounts g t) p.1) ∧
    (∀ pid, personSum (bucketCounts g t) pid ≠ 0 →
      (pid, personSum (bucketCounts g t) pid) ∈ personNonZeroCounts g t) := by
  refine ⟨?_, ?_, ?_, ?_⟩
  · unfold personNonZeroCounts
    rw [List.pairwise_filterMap]
    apply List.Pairwise.imp ?_ (pairwise_collectPids (bucketCounts g t))
    intro a b hab
    intro x hx y hy
    by_cases ha : personSum (bucketCounts g t) a = 0
    · rw [if_pos ha] at hx
      simp at hx
    · rw [if_neg ha] at hx
      by_cases hb : personSum (bucketCounts g t) b = 0
      · rw [if_pos hb] at hy
        simp at hy
      · rw [if_neg hb] at hy
        simp only [Option.mem_some_iff] at hx hy
        rw [← hx, ← hy]
        exact hab
  · intro p hp
    unfold personNonZeroCounts at hp
    obtain ⟨pid, _, hf⟩ := List.mem_filterMap.1 hp
    by_cases hz : personSum (bucketCounts g t) pid = 0
    · rw [if_pos hz] at hf
      cases hf
    · rw [if_neg hz] at hf
      simp only [Option.some.injEq] at hf
      rw [← hf]
      exact hz
  · intro p hp
    unfold personNonZeroCounts at hp
    obtain ⟨pid, _, hf⟩ := List.mem_filterMap.1 hp
    by_cases hz : personSum (bucketCounts g t) pid = 0
    · rw [if_pos hz] at hf
      cases hf
    · rw [if_neg hz] at hf
      simp only [Option.some.injEq] at hf
      rw [← hf]
  · intro pid hz
    unfold personNonZeroCounts
    refine List.mem_filterMap.2 ⟨pid, ?_, ?_⟩
    · exact mem_collectPids.2 (exists_entry_of_personSum_ne_zero hz)
    · rw [if_neg hz]

/-- Witness for C9: the gatherer of the removal examples yields the sorted
sparse per-person counts [(1, 5), (2, 7)] for the bucket at time 0. -/
theorem person_non_zero_counts_sorted_witness :
    ((1 : Nat), (5 : Nat)) ∈ personNonZeroCounts gRemoval 0 ∧
    personNonZeroCounts gRemoval 0 = [(1, 5), (2, 7)] := by
  have h := (person_non_zero_counts_sorted gRemoval 0).2.2.2 1 (by decide)
  have h2 : personSum (bucketCounts gRemoval 0) 1 = 5 := by decide
  rw [h2] at h
  exact ⟨h, by decide⟩

/-- Insertion into a list kept sorted by a boolean comparator. -/
def insertLe {α : Type} (le : α → α → Bool) (x : α) : List α → List α
  | [] => [x]
  | y :: rest => if le x y then x :: y :: rest else y :: insertLe le x rest

/-- Insertion sort by a boolean comparator; used to emit map contents in
the stable key order the persistence contract requires. -/
def sortLe {α : Type} (le : α → α → Bool) : List α → List α
  | [] => []
  | x :: rest => insertLe le x (sortLe le rest)

theorem chain'_insertLe {α : Type} (le : α → α → Bool)
    (total : ∀ a b, le a b = true ∨ le b a = true) (x : α) :
    ∀ {l : List α}, List.Chain' (fun a b => le a b = true) l →
      List.Chain' (fun a b => le a b = true) (insertLe le x l) := by
  intro l
  induction l with
  | nil =>
      intro _
      simp [insertLe]
  | cons y rest ih =>
      intro h
      by_cases hxy : le x y = true
      · simp only [insertLe, if_pos hxy]
        exact List.chain'_cons.2 ⟨hxy, h⟩
      · simp only [insertLe, if_neg hxy]
        have hyx : le y x = true := (total x y).resolve_left hxy
        have hrest : List.Chain' (fun a b => le a b = true) rest :=
          (List.chain'_cons'.1 h).2
        apply List.chain'_cons'.2
        refine ⟨?_, ih hrest⟩
        intro z hz
        cases rest with
        | nil =>
            simp [insertLe] at hz
            rw [← hz]
            exact hyx
        | cons w rest' =>
            by_cases hxw : le x w = true
            · simp only [insertLe, if_pos hxw, List.head?_cons,
                Option.mem_some_iff] at hz
              rw [← hz]
              exact hyx
            · simp only [insertLe, if_neg hxw, List.head?_cons,
                Option.mem_some_iff] at hz
              rw [← hz]
              exact (List.chain'_cons.1 h).1

theorem chain'_sortLe {α : Type} (le : α → α → Bool)
    (total : ∀ a b, le a b = true ∨ le b a = true) (l : List α) :
    List.Chain' (fun a b => le a b = true) (sortLe le l) := by
  induction l with
  | nil => simp [sortLe]
  | cons x rest ih => exact chain'_insertLe le total x ih

theorem sortLe_eq_of_chain' {α : Type} (le : α → α → Bool) :
    ∀ {l : List α}, List.Chain' (fun a b => le a b = true) l → sortLe le l = l := by
  intro l
  induction l with
  | nil =>
      intro _
      rfl
  | cons x rest ih =>
      intro h
      have hrest := (List.chain'_cons'.1 h).2
      simp only [sortLe]
      rw [ih hrest]
      cases rest with
      | nil => rfl
      | cons y rest' =>
          have hxy : le x y = true := (List.chain'_cons.1 h).1
          simp [insertLe, hxy]

theorem sortLe_idem {α : Type} (le : α → α → Bool)
    (total : ∀ a b, le a b = true ∨ le b a = true) (l : List α) :
    sortLe le (sortLe le l) = sortLe le l :=
  sortLe_eq_of_chain' le (chain'_sortLe le total l)

/-- The persistence key order on pair-count entries: by person id, then
attribute id. -/
def lePairEntry (a b : TSizeSizePr × Nat) : Bool :=
  decide (a.1.1 < b.1.1) || (decide (a.1.1 = b.1.1) && decide (a.1.2 ≤ b.1.2))

/-- The persistence key order on explicit-null keys. -/
def leNullKey (a b : TSizeSizePr) : Bool :=
  decide (a.1 < b.1) || (decide (a.1 = b.1) && decide (a.2 ≤ b.2))

/-- The persistence key order on influencer-count entries: by person id,
attribute id, then influencer value under the string order. -/
def leInfEntry (a b : InfKey × Nat) : Bool :=
  decide (a.1.1.1 < b.1.1.1) ||
  (decide (a.1.1.1 = b.1.1.1) &&
    (decide (a.1.1.2 < b.1.1.2) ||
      (decide (a.1.1.2 = b.1.1.2) && decide (a.1.2 ≤ b.1.2))))

theorem lePairEntry_total : ∀ a b, lePairEntry a b = true ∨ lePairEntry b a = true := by
  intro a b
  simp only [lePairEntry, Bool.or_eq_true, Bool.and_eq_true, decide_eq_true_eq]
  omega

theorem leNullKey_total : ∀ a b, leNullKey a b = true ∨ leNullKey b a = true := by
  intro a b
  simp only [leNullKey, Bool.or_eq_true, Bool.and_eq_true, decide_eq_true_eq]
  omega

theorem leInfEntry_total : ∀ a b, leInfEntry a b = true ∨ leInfEntry b a = true := by
  intro a b
  simp only [leInfEntry, Bool.or_eq_true, Bool.and_eq_true, decide_eq_true_eq]
  rcases Nat.lt_trichotomy a.1.1.1 b.1.1.1 with h1 | h1 | h1
  · exact Or.inl (Or.inl h1)
  · rcases lt_trichotomy a.1.1.2 b.1.1.2 with h2 | h2 | h2
    · exact Or.inl (Or.inr ⟨h1, Or.inl h2⟩)
    · rcases le_total a.1.2 b.1.2 with h3 | h3
      · exact Or.inl (Or.inr ⟨h1, Or.inr ⟨h2, h3⟩⟩)
      · exact Or.inr (Or.inr ⟨h1.symm, Or.inr ⟨h2.symm, h3⟩⟩)
    · exact Or.inr (Or.inr ⟨h1.symm, Or.inl h2⟩)
  · exact Or.inr (Or.inl h1)

/-- Canonical (persistence-order) form of a pair-counts payload. -/
def canonCounts (m : PairCounts) : PairCounts := sortLe lePairEntry m

/-- Canonical form of an explicit-null payload. -/
def canonNulls (s : ExplicitNulls) : ExplicitNulls := sortLe leNullKey s

/-- Canonical form of an influencer payload: each position's map in key
order, positions kept in place. -/
def canonInfVec (v : InfVec) : InfVec := v.map (sortLe leInfEntry)

/-- The gatherer state with every unordered-map payload brought to the
stable persistence order. -/
def canonGatherer (g : Gatherer) : Gatherer :=
  { g with
      personAttributeCounts := g.personAttributeCounts.mapPayload canonCounts
      multiBucketPersonAttributeCounts :=
        mapValues g.multiBucketPersonAttributeCounts canonCounts
      personAttributeExplicitNulls :=
        g.personAttributeExplicitNulls.mapPayload canonNulls
      multiBucketPersonAttributeExplicitNulls :=
        mapValues g.multiBucketPersonAttributeExplicitNulls canonNulls
      influencerCounts := g.influencerCounts.mapPayload canonInfVec
      multiBucketInfluencerCounts :=
        mapValues g.multiBucketInfluencerCounts canonInfVec }

theorem canonCounts_idem : ∀ m, canonCounts (canonCounts m) = canonCounts m :=
  fun m => sortLe_idem lePairEntry lePairEntry_total m

theorem canonNulls_idem : ∀ s, canonNulls (canonNulls s) = canonNulls s :=
  fun s => sortLe_idem leNullKey leNullKey_total s

theorem canonInfVec_idem : ∀ v, canonInfVec (canonInfVec v) = canonInfVec v := by
  intro v
  unfold canonInfVec
  rw [List.map_map]
  exact List.map_congr_left
    (fun m _ => sortLe_idem leInfEntry leInfEntry_total m)

theorem mapPayload_mapPayload {T U V : Type} (w : RollingWindow T) (F : T → U)
    (G : U → V) : (w.mapPayload F).mapPayload G = w.mapPayload (fun b => G (F b)) := by
  unfold RollingWindow.mapPayload
  simp only [mapValues_mapValues]

theorem canonGatherer_idem (g : Gatherer) :
    canonGatherer (canonGatherer g) = canonGatherer g := by
  have hc : (fun b => canonCounts (canonCounts b)) = canonCounts :=
    funext canonCounts_idem
  have hn : (fun b => canonNulls (canonNulls b)) = canonNulls :=
    funext canonNulls_idem
  have hv : (fun b => canonInfVec (canonInfVec b)) = canonInfVec :=
    funext canonInfVec_idem
  simp only [canonGatherer, mapPayload_mapPayload, mapValues_mapValues, hc, hn, hv]

/-- A token of the persisted form: the state is emitted through an abstract
writer as a stream of tagged values (`CStatePersistInserter`), modelled as
a token list. -/
inductive Tok where
  | tnat : Nat → Tok
  | tint : Int → Tok
  | tstr : String → Tok
deriving DecidableEq

def encNat (n : Nat) : List Tok := [Tok.tnat n]

def encInt (i : Int) : List Tok := [Tok.tint i]

/-- Encode the optional earliest time: a presence flag, then the value. -/
def encOptInt : Option Int → List Tok
  | none => [Tok.tnat 0]
  | some t => [Tok.tnat 1, Tok.tint t]

/-- Encode a list as its length followed by the encodings of its elements
in order. -/
def encList {α : Type} (enc : α → List Tok) (xs : List α) : List Tok :=
  Tok.tnat xs.length :: (xs.map enc).flatten

def decNat : List Tok → Option (Nat × List Tok)
  | Tok.tnat n :: rest => some (n, rest)
  | _ => none

def decInt : List Tok → Option (Int × List Tok)
  | Tok.tint i :: rest => some (i, rest)
  | _ => none

def decOptInt : List Tok → Option (Option Int × List Tok)
  | Tok.tnat 0 :: rest => some (none, rest)
  | Tok.tnat 1 :: Tok.tint t :: rest => some (some t, rest)
  | _ => none

/-- Decode exactly `n` elements with the element decoder. -/
def decListN {α : Type} (dec : List Tok → Option (α × List Tok)) :
    Nat → List Tok → Option (List α × List Tok)
  | 0, ts => some ([], ts)
  | n + 1, ts =>
      match dec ts with
      | none => none
      | some (x, ts') =>
          match decListN dec n ts' with
          | none => none
          | some (xs, ts'') => some (x :: xs, ts'')

/-- Decode a length-prefixed list. -/
def decList {α : Type} (dec : List Tok → Option (α × List Tok))
    (ts : List Tok) : Option (List α × List Tok) :=
  match decNat ts with
  | none => none
  | some (n, ts') => decListN dec n ts'

theorem decNat_enc (n : Nat) (r : List Tok) : decNat (encNat n ++ r) = some (n, r) := rfl

theorem decInt_enc (i : Int) (r : List Tok) : decInt (encInt i ++ r) = some (i, r) := rfl

theorem decOptInt_enc (o : Option Int) (r : List Tok) :
    decOptInt (encOptInt o ++ r) = some (o, r) := by
  cases o <;> rfl

theorem decListN_enc {α : Type} (dec : List Tok → Option (α × List Tok))
    (enc : α → List Tok) (hde : ∀ (x : α) r, dec (enc x ++ r) = some (x, r)) :
    ∀ (xs : List α) (r : List Tok),
      decListN dec xs.length ((xs.map enc).flatten ++ r) = some (xs, r) := by
  intro xs
  induction xs with
  | nil =>
      intro r
      simp [decListN]
  | cons x rest ih =>
      intro r
      simp only [List.map_cons, List.flatten_cons, List.length_cons,
        List.append_assoc]
      simp only [decListN]
      rw [hde x ((rest.map enc).flatten ++ r)]
      simp [ih r]

theorem decList_enc {α : Type} (dec : List Tok → Option (α × List Tok))
    (enc : α → List Tok) (hde : ∀ (x : α) r, dec (enc x ++ r) = some (x, r))
    (xs : List α) (r : List Tok) :
    decList dec (encList enc xs ++ r) = some (xs, r) := by
  unfold encList decList
  rw [List.cons_append]
  simp only [decNat]
  exact decListN_enc dec enc hde xs r

/-- Encode a pair key as its two ids. -/
def encPairKey (k : TSizeSizePr) : List Tok := [Tok.tnat k.1, Tok.tnat k.2]

def decPairKey : List Tok → Option (TSizeSizePr × List Tok)
  | Tok.tnat a :: Tok.tnat b :: rest => some ((a, b), rest)
  | _ => none

theorem decPairKey_enc (k : TSizeSizePr) (r : List Tok) :
    decPairKey (encPairKey k ++ r) = some (k, r) := by
  obtain ⟨a, b⟩ := k
  rfl

/-- Encode one pair-count entry: the key, then the count. -/
def encCountEntry (e : TSizeSizePr × Nat) : List Tok :=
  encPairKey e.1 ++ [Tok.tnat e.2]

def decCountEntry (ts : List Tok) : Option ((TSizeSizePr × Nat) × List Tok) :=
  match decPairKey ts with
  | none => none
  | some (k, ts') =>
      match decNat ts' with
      | none => none
      | some (n, ts'') => some ((k, n), ts'')

theorem decCountEntry_enc (e : TSizeSizePr × Nat) (r : List Tok) :
    decCountEntry (encCountEntry e ++ r) = some (e, r) := by
  obtain ⟨⟨a, b⟩, n⟩ := e
  rfl

/-- Encode one influencer-count entry: the pair key, the influencer value
by content, then the count. -/
def encInfEntry (e : InfKey × Nat) : List Tok :=
  encPairKey e.1.1 ++ [Tok.tstr e.1.2, Tok.tnat e.2]

def decInfEntry (ts : List Tok) : Option ((InfKey × Nat) × List Tok) :=
  match decPairKey ts with
  | none => none
  | some (k, ts') =>
      match ts' with
      | Tok.tstr v :: Tok.tnat n :: ts'' => some (((k, v), n), ts'')
      | _ => none

theorem decInfEntry_enc (e : InfKey × Nat) (r : List Tok) :
    decInfEntry (encInfEntry e ++ r) = some (e, r) := by
  obtain ⟨⟨⟨a, b⟩, v⟩, n⟩ := e
  rfl

def encCountsRaw (m : PairCounts) : List Tok := encList encCountEntry m

def decCounts (ts : List Tok) : Option (PairCounts × List Tok) :=
  decList decCountEntry ts

def encNullsRaw (s : ExplicitNulls) : List Tok := encList encPairKey s

def decNulls (ts : List Tok) : Option (ExplicitNulls × List Tok) :=
  decList decPairKey ts

def encInfMapRaw (m : InfMap) : List Tok := encList encInfEntry m

def decInfMap (ts : List Tok) : Option (InfMap × List Tok) :=
  decList decInfEntry ts

def encInfVecRaw (v : InfVec) : List Tok := encList encInfMapRaw v

def decInfVec (ts : List Tok) : Option (InfVec × List Tok) :=
  decList decInfMap ts

theorem decCounts_enc (m : PairCounts) (r : List Tok) :
    decCounts (encCountsRaw m ++ r) = some (m, r) :=
  decList_enc decCountEntry encCountEntry decCountEntry_enc m r

theorem decNulls_enc (s : ExplicitNulls) (r : List Tok) :
    decNulls (encNullsRaw s ++ r) = some (s, r) :=
  decList_enc decPairKey encPairKey decPairKey_enc s r

theorem decInfMap_enc (m : InfMap) (r : List Tok) :
    decInfMap (encInfMapRaw m ++ r) = some (m, r) :=
  decList_enc decInfEntry encInfEntry decInfEntry_enc m r

theorem decInfVec_enc (v : InfVec) (r : List Tok) :
    decInfVec (encInfVecRaw v ++ r) = some (v, r) :=
  decList_enc decInfMap encInfMapRaw decInfMap_enc v r

/-- Encode one window slot or overflow entry: the bucket-start time, then
the payload. -/
def encTimed {β : Type} (encP : β → List Tok) (s : Int × β) : List Tok :=
  Tok.tint s.1 :: encP s.2

def decTimed {β : Type} (decP : List Tok → Option (β × List Tok)) :
    List Tok → Option ((Int × β) × List Tok)
  | Tok.tint t :: rest =>
      match decP rest with
      | none => none
      | some (p, r) => some ((t, p), r)
  | _ => none

theorem decTimed_enc {β : Type} (decP : List Tok → Option (β × List Tok))
    (encP : β → List Tok) (hP : ∀ (p : β) r, decP (encP p ++ r) = some (p, r))
    (s : Int × β) (r : List Tok) :
    decTimed decP (encTimed encP s ++ r) = some (s, r) := by
  obtain ⟨t, p⟩ := s
  simp only [encTimed, List.cons_append, decTimed]
  rw [hP p r]

/-- Encode a rolling window: its capacity, then its retained slots in time
order. -/
def encWindow {β : Type} (encP : β → List Tok) (w : RollingWindow β) : List Tok :=
  Tok.tnat w.capacity :: encList (encTimed encP) w.slots

def decWindow {β : Type} (decP : List Tok → Option (β × List Tok)) :
    List Tok → Option (RollingWindow β × List Tok)
  | Tok.tnat cap :: rest =>
      match decList (decTimed decP) rest with
      | none => none
      | some (slots, r) => some (⟨cap, slots⟩, r)
  | _ => none

theorem decWindow_enc {β : Type} (decP : List Tok → Option (β × List Tok))
    (encP : β → List Tok) (hP : ∀ (p : β) r, decP (encP p ++ r) = some (p, r))
    (w : RollingWindow β) (r : List Tok) :
    decWindow decP (encWindow encP w ++ r) = some (w, r) := by
  obtain ⟨cap, slots⟩ := w
  simp only [encWindow, List.cons_append, decWindow]
  rw [decList_enc (decTimed decP) (encTimed encP) (decTimed_enc decP encP hP) slots r]

/-- Encode an overflow (multi-bucket) map: its entries in time order. -/
def encOverflow {β : Type} (encP : β → List Tok) (m : List (Int × β)) : List Tok :=
  encList (encTimed encP) m

def decOverflow {β : Type} (decP : List Tok → Option (β × List Tok))
    (ts : List Tok) : Option (List (Int × β) × List Tok) :=
  decList (decTimed decP) ts

theorem decOverflow_enc {β : Type} (decP : List Tok → Option (β × List Tok))
    (encP : β → List Tok) (hP : ∀ (p : β) r, decP (encP p ++ r) = some (p, r))
    (m : List (Int × β)) (r : List Tok) :
    decOverflow decP (encOverflow encP m ++ r) = some (m, r) :=
  decList_enc (decTimed decP) (encTimed encP) (decTimed_enc decP encP hP) m r

/-- Modelled from the spec: `serialize(writer)`
(`baseAcceptPersistInserter`, whose body is not among the available
sources): emit the configuration, the earliest time, the current bucket
start, every live rolling-window slot (time and payload) and every
overflow-map entry, with every unordered-map payload in the stable key
order — pair keys by (person, attribute), influencer keys by
(pair, value) — so that equal logical states produce identical output. -/
def serialize (g : Gatherer) : List Tok :=
  let c := canonGatherer g
  encInt c.bucketLength ++
    (encNat c.latencyBuckets ++
      (encNat c.numInfluencers ++
        (encOptInt c.earliestTime ++
          (encInt c.bucketStart ++
            (encWindow encCountsRaw c.personAttributeCounts ++
              (encOverflow encCountsRaw c.multiBucketPersonAttributeCounts ++
                (encWindow encNullsRaw c.personAttributeExplicitNulls ++
                  (encOverflow encNullsRaw
                      c.multiBucketPersonAttributeExplicitNulls ++
                    (encWindow encInfVecRaw c.influencerCounts ++
                      encOverflow encInfVecRaw
                        c.multiBucketInfluencerCounts)))))))))

/-- Modelled from the spec: `deserialize(reader)`
(`baseAcceptRestoreTraverser`): parse the persisted form back into a
gatherer state; any tag or structure the parser does not recognise, or
trailing data, surfaces as a restore failure (`none`). -/
def deserialize (ts : List Tok) : Option Gatherer := do
  let (bl, ts) ← decInt ts
  let (lb, ts) ← decNat ts
  let (ni, ts) ← decNat ts
  let (et, ts) ← decOptInt ts
  let (bs, ts) ← decInt ts
  let (pac, ts) ← decWindow decCounts ts
  let (mpac, ts) ← decOverflow decCounts ts
  let (nulls, ts) ← decWindow decNulls ts
  let (mnulls, ts) ← decOverflow decNulls ts
  let (infc, ts) ← decWindow decInfVec ts
  let (minf, ts) ← decOverflow decInfVec ts
  match ts with
  | [] => some (Gatherer.mk bl lb ni et bs pac mpac nulls mnulls infc minf)
  | _ => none

/-- Modelled from the spec: the stable 64-bit hash combination function
underlying `checksum` (`core::CHashing::hashCombine`, outside the
available sources): an order-dependent fold. -/
def hashCombine64 (a b : Nat) : Nat := (a * 1099511628211 + b + 14695981039) % (2 ^ 64)

/-- A stable content hash of a string, folding over its characters. -/
def strHash64 (s : String) : Nat :=
  s.data.foldl (fun h c => hashCombine64 h c.toNat) 5381

/-- The hash of one persisted token, tagged by kind. -/
def tokHash : Tok → Nat
  | Tok.tnat n => hashCombine64 1 n
  | Tok.tint i => hashCombine64 2 (if i < 0 then 2 * i.natAbs + 1 else 2 * i.natAbs)
  | Tok.tstr s => hashCombine64 3 (strHash64 s)

/-- Modelled from the spec: `checksum()` — a seed combined with the ordered
hash of every retained key and value using the stable combination function;
the traversal order agrees with the serialization order. -/
def checksum (g : Gatherer) : Nat :=
  (serialize g).foldl (fun h t => hashCombine64 h (tokHash t)) 104729

theorem serialize_canonGatherer (g : Gatherer) :
    serialize (canonGatherer g) = serialize g := by
  unfold serialize
  rw [canonGatherer_idem]

theorem bind_some_reduce {α β : Type} (a : α) (f : α → Option β) :
    (some a >>= f) = f a := rfl

theorem deserialize_serialize (g : Gatherer) :
    deserialize (serialize g) = some (canonGatherer g) := by
  have hO3l : decOverflow decInfVec
      (encOverflow encInfVecRaw (canonGatherer g).multiBucketInfluencerCounts)
      = some ((canonGatherer g).multiBucketInfluencerCounts, []) := by
    have := decOverflow_enc decInfVec encInfVecRaw decInfVec_enc
      (canonGatherer g).multiBucketInfluencerCounts []
    simpa using this
  simp only [serialize, deserialize, decInt_enc, decNat_enc, decOptInt_enc,
    decWindow_enc decCounts encCountsRaw decCounts_enc,
    decOverflow_enc decCounts encCountsRaw decCounts_enc,
    decWindow_enc decNulls encNullsRaw decNulls_enc,
    decOverflow_enc decNulls encNullsRaw decNulls_enc,
    decWindow_enc decInfVec encInfVecRaw decInfVec_enc,
    hO3l, bind_some_reduce]

/-- C3: persistence round-trip — restoring from the persisted form of any
aggregator state succeeds and yields a state whose checksum equals the
checksum of the original state. -/
theorem persistence_roundtrip (g : Gatherer) :
    ∃ g', deserialize (serialize g) = some g' ∧ checksum g' = checksum g := by
  refine ⟨canonGatherer g, deserialize_serialize g, ?_⟩
  unfold checksum
  rw [serialize_canonGatherer]

/-- C6: too-late event atomicity — a `recordEvent` call whose time is
earlier than the earliest addressable bucket is reported to the caller as
rejected (not fatal), mutates nothing, and leaves the checksum unchanged. -/
theorem tooLate_event_atomic (g : Gatherer) (e : EventData)
    (h : e.time < earliestBucketStartTime g) :
    addEventData g e = (g, false) ∧
    checksum (addEventData g e).1 = checksum g := by
  have hr := addEventData_reject g e h
  exact ⟨hr, by rw [hr]⟩

/-- Witness for C6: an event at time -10 against `gWitness` (earliest
addressable bucket start 0) is rejected and changes neither the state nor
the checksum. -/
theorem tooLate_event_atomic_witness :
    addEventData gWitness ⟨1, 0, -10, 3, false, []⟩ = (gWitness, false) ∧
    checksum (addEventData gWitness ⟨1, 0, -10, 3, false, []⟩).1
      = checksum gWitness :=
  tooLate_event_atomic gWitness ⟨1, 0, -10, 3, false, []⟩ (by decide)

end MlModel
